import Mathlib

/-!
Verification of the echopype combine engine (`echopype/echodata/combine.py`).

The data model follows the spec's §3 (InstrumentRecord / GroupDataset) and the
source file `combine.py`.  Components that live outside the provided sources
(the qc module's time-repair functions, the `EchoData` container class, the
`SONAR_MODELS` table and xarray's `combine_nested`) are modelled from the
spec where indicated; everything else is translated from `combine.py`.
-/

/-- Global-attrs mappings are modelled as association lists with
first-match lookup standing for Python `dict` lookup. -/
abbrev AttrMap := List (String × String)

/-- First-match association-list lookup (Python `dict.__getitem__`). -/
def lookupA {α : Type} (k : String) : List (String × α) → Option α
  | [] => none
  | (k', v) :: rest => if k = k' then some v else lookupA k rest

/-- Values a provenance variable can hold: origin identifiers (possibly null
paths), raw timestamps, or a list of pre-merge attrs mappings. -/
inductive VarVal where
  | paths : List (Option String) → VarVal
  | ints : List Int → VarVal
  | attrsList : List AttrMap → VarVal
deriving DecidableEq, Repr

/-- A group's dataset (spec §3 GroupDataset): named dimension sizes, the
acquisition-time coordinate when present, named variables and global attrs. -/
structure GroupDataset where
  dims : List (String × Nat)
  pingTime : Option (List Int)
  vars : List (String × VarVal)
  attrs : AttrMap
deriving DecidableEq, Repr

/-- Size of a dataset along a named dimension (0 when the dim is absent). -/
def sizeAlong (ds : GroupDataset) (dim : String) : Nat :=
  (lookupA dim ds.dims).getD 0

/-- An instrument record (the `EchoData` container, modelled from the spec:
model tag, origin identifiers, and one optional dataset per group name). -/
structure EchoData where
  sonar_model : Option String
  source_file : Option String
  converted_raw_path : Option String
  groups : List (String × Option GroupDataset)
deriving DecidableEq, Repr

/-- The source's `getattr(echodata, group)`: the group's dataset, or `None`. -/
def EchoData.getGroup (ed : EchoData) (g : String) : Option GroupDataset :=
  match lookupA g ed.groups with
  | some v => v
  | none => none

/-- The source's `setattr(result, group, value)`. -/
def EchoData.setGroup (ed : EchoData) (g : String) (v : Option GroupDataset) : EchoData :=
  { ed with groups := (g, v) :: ed.groups }

/-- The constructor `EchoData()`: a fresh record with every group absent. -/
def EchoData.empty : EchoData :=
  ⟨none, none, none, []⟩

/-- Errors combine can raise: `ValueError` for the model-tag validation,
xarray's `MergeError` for attrs conflicts, and other backend errors. -/
inductive CombineError where
  | validation : String → CombineError
  | attrConflict : String → CombineError
  | backend : String → CombineError
deriving DecidableEq, Repr

/-- The call-scoped accumulator threaded through the group loop
(`old_ping_time`, `new_ping_time`, `old_attrs` in the source) together with
the warnings emitted so far. -/
structure CombineState where
  old_ping_time : Option (List Int)
  new_ping_time : Option (List Int)
  old_attrs : List (String × List AttrMap)
  warnings : List String
deriving DecidableEq, Repr

/-- The combined record together with the user-visible warnings the call
emitted. -/
structure CombineOutput where
  result : EchoData
  warnings : List String
deriving DecidableEq, Repr

/-- The source's `union_attrs`: folds `dict.update` over the datasets'
attrs, so keys from later datasets take priority.  With first-match lookup,
`dict.update base upd` is `upd ++ base`. -/
def union_attrs (datasets : List GroupDataset) : AttrMap :=
  datasets.foldl (fun total ds => ds.attrs ++ total) []

/-- Modelled from the spec: the external `_echopype_version` constant; its
value is immaterial to every claim. -/
def ECHOPYPE_VERSION : String := "0.5.0"

/-- Modelled from the spec: the UTC conversion timestamp is the one
non-deterministic field of the provenance group; it is abstracted as a fixed
value, on which no claim depends. -/
def conversion_time_value : String := "1970-01-01T00:00:00Z"

/-- The source's `assemble_combined_provenance`: one `file` dimension of
length equal to the input count, a `src_filenames` variable holding the
origin identifiers in order, and the software-identity attrs. -/
def assemble_combined_provenance (input_paths : List (Option String)) : GroupDataset :=
  { dims := [("file", input_paths.length)]
  , pingTime := none
  , vars := [("src_filenames", VarVal.paths input_paths)]
  , attrs := [("conversion_software_name", "echopype"),
              ("conversion_software_version", ECHOPYPE_VERSION),
              ("conversion_time", conversion_time_value)] }

/-- Modelled from the spec: `EchoData.group_map`, the fixed ordered list of
group names an instrument record carries (glossary plus the special
top/sonar/provenance groups). -/
def group_map : List String :=
  ["top", "environment", "platform", "nmea", "provenance", "sonar", "beam", "vendor"]

/-- Modelled from the spec: the `SONAR_MODELS` concatenation-dimension table
from the external core module, `(model, group) → dim` with a `default`
fallback.  Only the default entry matters to the claims. -/
def concat_dims_table (_model : String) : List (String × String) :=
  [("default", "ping_time")]

/-- The lookup `SONAR_MODELS[model]["concat_dims"].get(group, ...["default"])`. -/
def concatDimFor (model g : String) : String :=
  (lookupA g (concat_dims_table model)).getD
    ((lookupA "default" (concat_dims_table model)).getD "ping_time")

/-- Modelled from the spec: `exist_reversed_time` from the external qc
module — true iff some element is less than or equal to its predecessor. -/
def exist_reversed_time : List Int → Bool
  | [] => false
  | [_] => false
  | x :: y :: rest => decide (y ≤ x) || exist_reversed_time (y :: rest)

/-- Modelled from the spec: the minimal time increment used by the repair
(the spec's worked example uses 1). -/
def time_increment : Int := 1

/-- Modelled from the spec: the single left-to-right repair pass of
`coerce_increasing_time`.  `prev` is the previous corrected value, `offset`
the running offset; at a reversal the corrected value becomes exactly one
increment above the previous corrected value and the offset grows
accordingly. -/
def coerce_go (prev offset : Int) : List Int → List Int
  | [] => []
  | y :: rest =>
    if y + offset ≤ prev then
      (prev + time_increment) :: coerce_go (prev + time_increment) (prev + time_increment - y) rest
    else
      (y + offset) :: coerce_go (y + offset) offset rest

/-- Modelled from the spec: `coerce_increasing_time` from the external qc
module, restricted to the `ping_time` coordinate it repairs. -/
def coerce_increasing_time : List Int → List Int
  | [] => []
  | x :: rest => x :: coerce_go x 0 rest

/-- Whether two attrs entries disagree: same key, different value. -/
def hasConflict (all : AttrMap) : Bool :=
  all.any (fun kv => all.any (fun kv2 => kv.1 == kv2.1 && !(kv.2 == kv2.2)))

/-- Modelled from the spec: xarray's `combine_attrs` policies as described in
§4.2 (override / drop / identical / no_conflicts), with unknown values
rejected by the backend. -/
def mergeAttrsPolicy (p : String) (ms : List AttrMap) : Except CombineError AttrMap :=
  if p = "override" then .ok (ms.headD [])
  else if p = "drop" then .ok []
  else if p = "identical" then
    match ms with
    | [] => .ok []
    | a :: rest =>
      if rest.all (fun b => b == a) then .ok a
      else .error (.attrConflict "combine_attrs identical: datasets have conflicting attrs")
  else if p = "no_conflicts" then
    if hasConflict ms.flatten then .error (.attrConflict "combine_attrs no_conflicts: conflicting values")
    else .ok ms.flatten
  else .error (.backend ("unrecognized value for combine_attrs: " ++ p))

/-- Replace (or create) the size of one named dimension. -/
def setDimSize (dims : List (String × Nat)) (dim : String) (n : Nat) : List (String × Nat) :=
  if dims.any (fun pr => pr.1 == dim) then
    dims.map (fun pr => if pr.1 = dim then (pr.1, n) else pr)
  else dims ++ [(dim, n)]

/-- Concatenation of the time coordinates contributed by the inputs. -/
def joinPings : List (List Int) → Option (List Int)
  | [] => none
  | l :: ls => some ((l :: ls).flatten)

/-- Modelled from the spec: xarray's `combine_nested` over one concat
dimension — the result's size along that dimension is the sum of the inputs'
sizes, the time coordinate is the concatenation of the inputs' coordinates,
and the global attrs follow the selected policy. -/
def combineNested (dss : List GroupDataset) (dim : String) (p : String) :
    Except CombineError GroupDataset :=
  match dss with
  | [] => .error (.backend "cannot combine an empty list of datasets")
  | d :: rest =>
    match mergeAttrsPolicy p ((d :: rest).map (fun x => x.attrs)) with
    | .error e => .error e
    | .ok att =>
      .ok { dims := setDimSize d.dims dim (((d :: rest).map (fun x => sizeAlong x dim)).sum)
          , pingTime := joinPings ((d :: rest).filterMap (fun x => x.pingTime))
          , vars := d.vars
          , attrs := att }

/-- The policy actually handed to the concatenation backend: the source
passes `"drop"` when the caller chose `"overwrite_conflicts"`. -/
def effective_policy (p : String) : String :=
  if p = "overwrite_conflicts" then "drop" else p

/-- The separate union-with-last-write-wins pass the source applies after
concatenation under `"overwrite_conflicts"`. -/
def applyAttrsFix (p : String) (dss : List GroupDataset) (cg : GroupDataset) : GroupDataset :=
  if p = "overwrite_conflicts" then { cg with attrs := union_attrs dss } else cg

/-- Snapshot of the contributing datasets' pre-merge attrs when more than one
dataset contributed (`old_attrs[group] = ...` in the source). -/
def recordOldAttrs (g : String) (dss : List GroupDataset) (st : CombineState) : CombineState :=
  if dss.length > 1 then
    { st with old_attrs := st.old_attrs ++ [(g, dss.map (fun d => d.attrs))] }
  else st

/-- The user-visible warning text from the source. -/
def reversal_warning : String :=
  "EK60 ping_time reversal detected; the ping times will be corrected (see https://github.com/OSOceanAcoustics/echopype/pull/297)"

/-- The ping-time block of the group loop: if the group carries `ping_time`
and a reversal is detected, either compute the correction (first time,
warning) or overwrite with the previously computed corrected coordinate. -/
def applyPingFix (cg : GroupDataset) (st : CombineState) : GroupDataset × CombineState :=
  match cg.pingTime with
  | none => (cg, st)
  | some pt =>
    if exist_reversed_time pt then
      match st.old_ping_time with
      | none =>
        ({ cg with pingTime := some (coerce_increasing_time pt) },
         { old_ping_time := some pt
         , new_ping_time := some (coerce_increasing_time pt)
         , old_attrs := st.old_attrs
         , warnings := st.warnings ++ [reversal_warning] })
      | some _ => ({ cg with pingTime := st.new_ping_time }, st)
    else (cg, st)

/-- The per-group body of the combine loop for an ordinary (concatenated)
group: gather the present sub-datasets, concatenate, apply the
overwrite-conflicts attrs pass, snapshot pre-merge attrs, repair the time
coordinate.  (The `beam` fixed-width dtype coercion of the source acts only
on dtypes, which this value model does not carry.) -/
def combineGroupCore (model p g : String) (dss : List GroupDataset) (st : CombineState) :
    Except CombineError (Option GroupDataset × CombineState) :=
  match dss with
  | [] => .ok (none, st)
  | d :: rest =>
    match combineNested (d :: rest) (concatDimFor model g) (effective_policy p) with
    | .error e => .error e
    | .ok cg0 =>
      let cg1 := applyAttrsFix p (d :: rest) cg0
      let st1 := recordOldAttrs g (d :: rest) st
      let pr := applyPingFix cg1 st1
      .ok (some pr.1, pr.2)

/-- The per-group body applied to the sub-datasets the records contribute
for this group (`group_datasets` in the source). -/
def combineGroupStep (model p g : String) (eds : List EchoData) (st : CombineState) :
    Except CombineError (Option GroupDataset × CombineState) :=
  combineGroupCore model p g (eds.filterMap (fun ed => ed.getGroup g)) st

/-- The call `combined_group.drop_dims("concat_dim", errors="ignore")`: the synthetic
bookkeeping dimension is removed from any non-absent group. -/
def drop_concat_dim (cg : GroupDataset) : GroupDataset :=
  { dims := cg.dims.filter (fun pr => !(pr.1 == "concat_dim"))
  , pingTime := cg.pingTime
  , vars := cg.vars
  , attrs := cg.attrs }

/-- The origin identifier of a record: its source file path, or its prior
converted path when the source file path is null. -/
def originOf (ed : EchoData) : Option String :=
  match ed.source_file with
  | some s => some s
  | none => ed.converted_raw_path

/-- One iteration of the group loop: top/sonar are copied from the first
record, provenance is rebuilt, all other groups are concatenated. -/
def groupHandle (model p g : String) (eds : List EchoData) (st : CombineState) :
    Except CombineError (Option GroupDataset × CombineState) :=
  if g = "top" ∨ g = "sonar" then
    .ok ((eds.headD EchoData.empty).getGroup g, st)
  else if g = "provenance" then
    .ok (some (assemble_combined_provenance (eds.map originOf)), st)
  else combineGroupStep model p g eds st

/-- The group loop of `combine_echodata` over the fixed group map. -/
def processGroups (model p : String) (eds : List EchoData) :
    List String → EchoData → CombineState → Except CombineError (EchoData × CombineState)
  | [], acc, st => .ok (acc, st)
  | g :: rest, acc, st =>
    match groupHandle model p g eds st with
    | .error e => .error e
    | .ok (cgOpt, st') =>
      processGroups model p eds rest (acc.setGroup g (cgOpt.map drop_concat_dim)) st'

/-- The message `"all EchoData objects must have non-None sonar_model values"`. -/
def model_null_msg : String := "all EchoData objects must have non-None sonar_model values"

/-- The message `"all EchoData objects must have the same sonar_model value"`. -/
def model_mismatch_msg : String := "all EchoData objects must have the same sonar_model value"

/-- The validation loop of `combine_echodata`: every record's model tag must
be non-null and equal to the first record's. -/
def find_sonar_model : List EchoData → Option String → Except String (Option String)
  | [], sm => .ok sm
  | ed :: rest, sm =>
    match ed.sonar_model with
    | none => .error model_null_msg
    | some m =>
      match sm with
      | none => find_sonar_model rest (some m)
      | some m0 =>
        if m ≠ m0 then .error model_mismatch_msg
        else find_sonar_model rest (some m0)

/-- Attach one variable to the provenance group of the result
(`result.provenance[name] = value`). -/
def addProvenanceVar (r : EchoData) (name : String) (v : VarVal) : EchoData :=
  match r.getGroup "provenance" with
  | some pg => r.setGroup "provenance" (some { pg with vars := pg.vars ++ [(name, v)] })
  | none => r

/-- Attach the pre-combination attrs snapshots to the provenance group
(`result.provenance.assign(...)` loop of the source). -/
def attachOldAttrs (r : EchoData) : List (String × List AttrMap) → EchoData
  | [] => r
  | (g, ms) :: rest => attachOldAttrs (addProvenanceVar r (g ++ "_attrs") (VarVal.attrsList ms)) rest

/-- The source's `combine_echodata`: empty-input early return, model-tag
validation, the group loop, then the provenance postprocessing. -/
def combine_echodata (echodatas : List EchoData) (combine_attrs : String) :
    Except CombineError CombineOutput :=
  if echodatas.isEmpty then .ok { result := EchoData.empty, warnings := [] }
  else
    match find_sonar_model echodatas none with
    | .error msg => .error (.validation msg)
    | .ok sm =>
      match processGroups (sm.getD "") combine_attrs echodatas group_map
          EchoData.empty ⟨none, none, [], []⟩ with
      | .error e => .error e
      | .ok (r0, st) =>
        let r1 := match st.old_ping_time with
                  | some opt => addProvenanceVar r0 "old_ping_time" (VarVal.ints opt)
                  | none => r0
        .ok { result := attachOldAttrs r1 st.old_attrs, warnings := st.warnings }

/-- The default value of the `combine_attrs` parameter in the source. -/
def combine_attrs_default : String := "override"

/-- The call `combine_echodata` makes without an explicit `combine_attrs` argument. -/
def combine_echodata_default (echodatas : List EchoData) : Except CombineError CombineOutput :=
  combine_echodata echodatas combine_attrs_default

/-- Whether a combine call succeeds. -/
def combineOk (eds : List EchoData) (p : String) : Bool :=
  match combine_echodata eds p with
  | .ok _ => true
  | .error _ => false

/-- The group named `g` of the combined record (none when the call fails or
the group is absent). -/
def groupOf (eds : List EchoData) (p g : String) : Option GroupDataset :=
  match combine_echodata eds p with
  | .ok out => out.result.getGroup g
  | .error _ => none

/-- The acquisition-time coordinate of one combined group. -/
def pingOf (eds : List EchoData) (p g : String) : Option (List Int) :=
  (groupOf eds p g).bind (fun cg => cg.pingTime)

/-- The global attrs of one combined group. -/
def attrsOf (eds : List EchoData) (p g : String) : Option AttrMap :=
  (groupOf eds p g).map (fun cg => cg.attrs)

/-- The warnings a successful combine call emitted. -/
def warningsOf (eds : List EchoData) (p : String) : Option (List String) :=
  match combine_echodata eds p with
  | .ok out => some out.warnings
  | .error _ => none

/-- The `old_ping_time` variable of the combined provenance group. -/
def provOldPing (eds : List EchoData) (p : String) : Option (List Int) :=
  (groupOf eds p "provenance").bind (fun pg =>
    match lookupA "old_ping_time" pg.vars with
    | some (VarVal.ints l) => some l
    | _ => none)

/-- The `src_filenames` variable of the combined provenance group. -/
def srcFilenamesOf (eds : List EchoData) (p : String) : Option VarVal :=
  (groupOf eds p "provenance").bind (fun pg => lookupA "src_filenames" pg.vars)

/-- The length of the `file` dimension of the combined provenance group. -/
def fileDimOf (eds : List EchoData) (p : String) : Option Nat :=
  (groupOf eds p "provenance").map (fun pg => sizeAlong pg "file")

/-- The common model tag the validation loop finds (none when validation
fails or the input is empty). -/
def modelOf (eds : List EchoData) : Option String :=
  match find_sonar_model eds none with
  | .ok sm => sm
  | .error _ => none

/-- Whether a group name is one of the ordinary concatenated groups. -/
def isConcatGroup (g : String) : Bool :=
  !(g == "top") && !(g == "sonar") && !(g == "provenance")

/-- The concatenated (pre time-repair) dataset of one group, for a fixed
model tag: exactly what the group loop hands to the ping-time block. -/
def rawConcat (m p : String) (eds : List EchoData) (g : String) : Option GroupDataset :=
  match eds.filterMap (fun ed => ed.getGroup g) with
  | [] => none
  | d :: rest => (combineNested (d :: rest) (concatDimFor m g) (effective_policy p)).toOption

/-- The concatenated time coordinate of one group before any repair. -/
def rawPing (m p : String) (eds : List EchoData) (g : String) : Option (List Int) :=
  (rawConcat m p eds g).bind (fun cg => cg.pingTime)

/-- Whether a reversal is detected on one group's concatenated coordinate. -/
def revAt (m p : String) (eds : List EchoData) (g : String) : Bool :=
  match rawPing m p eds g with
  | some pt => exist_reversed_time pt
  | none => false

/-- The projection `rawConcat` with the model tag taken from the validation loop. -/
def rawConcatTop (eds : List EchoData) (p g : String) : Option GroupDataset :=
  (modelOf eds).bind (fun m => rawConcat m p eds g)

/-- The projection `rawPing` with the model tag taken from the validation loop. -/
def rawPingTop (eds : List EchoData) (p g : String) : Option (List Int) :=
  (modelOf eds).bind (fun m => rawPing m p eds g)

/-- The predicate `revAt` with the model tag taken from the validation loop. -/
def revAtTop (eds : List EchoData) (p g : String) : Bool :=
  match modelOf eds with
  | some m => revAt m p eds g
  | none => false

/-- The group-loop detection predicate: an ordinary group whose concatenated
coordinate carries a reversal. -/
def grpRev (m p : String) (eds : List EchoData) (g : String) : Bool :=
  isConcatGroup g && revAt m p eds g

/-- The first group of the fixed group map where a reversal is detected. -/
def firstRevGroup (eds : List EchoData) (p : String) : Option String :=
  group_map.find? (fun g => isConcatGroup g && revAtTop eds p g)

/-- A record with the same tags but every group absent. -/
def stripGroups (ed : EchoData) : EchoData :=
  { sonar_model := ed.sonar_model
  , source_file := ed.source_file
  , converted_raw_path := ed.converted_raw_path
  , groups := [] }

/-- The attrs a concatenated group ends up with under a policy: the
union-with-last-write-wins pass for `overwrite_conflicts`, the backend's
merge otherwise. -/
def expectedAttrs (p : String) (dss : List GroupDataset) : Option AttrMap :=
  if p = "overwrite_conflicts" then some (union_attrs dss)
  else (mergeAttrsPolicy p (dss.map (fun x => x.attrs))).toOption

/-- Left-biased choice on options. -/
def optOr {α : Type} : Option α → Option α → Option α
  | some v, _ => some v
  | none, o => o

/-- The value of the last dataset (by input order) that defines a key. -/
def lastWins (k : String) : List GroupDataset → Option String
  | [] => none
  | d :: rest => optOr (lastWins k rest) (lookupA k d.attrs)

/-! ### Basic lemmas -/

theorem optOr_none_right {α : Type} (o : Option α) : optOr o none = o := by
  cases o <;> rfl

theorem optOr_assoc {α : Type} (a b c : Option α) :
    optOr (optOr a b) c = optOr a (optOr b c) := by
  cases a <;> cases b <;> rfl

theorem lookupA_append {α : Type} (k : String) (l1 l2 : List (String × α)) :
    lookupA k (l1 ++ l2) = optOr (lookupA k l1) (lookupA k l2) := by
  induction l1 with
  | nil => rfl
  | cons pr rest ih =>
    obtain ⟨k', v⟩ := pr
    by_cases h : k = k' <;> simp [lookupA, h, ih, optOr]

theorem getGroup_setGroup_same (ed : EchoData) (g : String) (v : Option GroupDataset) :
    (ed.setGroup g v).getGroup g = v := by
  simp [EchoData.getGroup, EchoData.setGroup, lookupA]

theorem getGroup_setGroup_ne (ed : EchoData) (g g' : String) (v : Option GroupDataset)
    (h : g' ≠ g) : (ed.setGroup g v).getGroup g' = ed.getGroup g' := by
  simp [EchoData.getGroup, EchoData.setGroup, lookupA, h]

theorem getGroup_empty (g : String) : EchoData.empty.getGroup g = none := by
  rfl

theorem chain'_of_not_reversed : ∀ l : List Int,
    exist_reversed_time l = false → l.Chain' (· < ·)
  | [], _ => by simp
  | [_], _ => by simp
  | x :: y :: rest, h => by
    rw [exist_reversed_time] at h
    simp only [Bool.or_eq_false_iff, decide_eq_false_iff_not, not_le] at h
    exact List.chain'_cons.2 ⟨h.1, chain'_of_not_reversed (y :: rest) h.2⟩

theorem chain'_coerce_go : ∀ (rest : List Int) (prev offset : Int),
    List.Chain' (· < ·) (prev :: coerce_go prev offset rest)
  | [], _, _ => by simp [coerce_go]
  | y :: rest, prev, offset => by
    rw [coerce_go]
    by_cases h : y + offset ≤ prev
    · rw [if_pos h]
      refine List.chain'_cons.2 ⟨?_, chain'_coerce_go rest _ _⟩
      simp [time_increment]
    · rw [if_neg h]
      refine List.chain'_cons.2 ⟨?_, chain'_coerce_go rest _ _⟩
      omega

theorem chain'_coerce (l : List Int) :
    List.Chain' (· < ·) (coerce_increasing_time l) := by
  cases l with
  | nil => simp [coerce_increasing_time]
  | cons x rest => exact chain'_coerce_go rest x 0

theorem lookupA_lastWins (k : String) :
    ∀ dss : List GroupDataset, lookupA k (union_attrs dss) = lastWins k dss := by
  have main : ∀ (dss : List GroupDataset) (acc : AttrMap),
      lookupA k (dss.foldl (fun total ds => ds.attrs ++ total) acc) =
        optOr (lastWins k dss) (lookupA k acc) := by
    intro dss
    induction dss with
    | nil => intro acc; rfl
    | cons d rest ih =>
      intro acc
      rw [List.foldl_cons, ih (d.attrs ++ acc), lookupA_append, lastWins, optOr_assoc]
  intro dss
  rw [union_attrs, main dss []]
  exact optOr_none_right _

/-! ### Field lemmas for the per-group transformations -/

theorem applyAttrsFix_pingTime (p : String) (dss : List GroupDataset) (cg : GroupDataset) :
    (applyAttrsFix p dss cg).pingTime = cg.pingTime := by
  unfold applyAttrsFix; split <;> rfl

theorem applyAttrsFix_dims (p : String) (dss : List GroupDataset) (cg : GroupDataset) :
    (applyAttrsFix p dss cg).dims = cg.dims := by
  unfold applyAttrsFix; split <;> rfl

theorem applyAttrsFix_vars (p : String) (dss : List GroupDataset) (cg : GroupDataset) :
    (applyAttrsFix p dss cg).vars = cg.vars := by
  unfold applyAttrsFix; split <;> rfl

theorem applyAttrsFix_attrs (p : String) (dss : List GroupDataset) (cg : GroupDataset) :
    (applyAttrsFix p dss cg).attrs =
      if p = "overwrite_conflicts" then union_attrs dss else cg.attrs := by
  unfold applyAttrsFix; split <;> simp_all

theorem recordOldAttrs_old_ping (g : String) (dss : List GroupDataset) (st : CombineState) :
    (recordOldAttrs g dss st).old_ping_time = st.old_ping_time := by
  unfold recordOldAttrs; split <;> rfl

theorem recordOldAttrs_new_ping (g : String) (dss : List GroupDataset) (st : CombineState) :
    (recordOldAttrs g dss st).new_ping_time = st.new_ping_time := by
  unfold recordOldAttrs; split <;> rfl

theorem recordOldAttrs_warnings (g : String) (dss : List GroupDataset) (st : CombineState) :
    (recordOldAttrs g dss st).warnings = st.warnings := by
  unfold recordOldAttrs; split <;> rfl

theorem drop_concat_dim_pingTime (cg : GroupDataset) :
    (drop_concat_dim cg).pingTime = cg.pingTime := rfl

theorem drop_concat_dim_attrs (cg : GroupDataset) :
    (drop_concat_dim cg).attrs = cg.attrs := rfl

theorem drop_concat_dim_vars (cg : GroupDataset) :
    (drop_concat_dim cg).vars = cg.vars := rfl

theorem applyPingFix_no_ping (cg : GroupDataset) (st : CombineState)
    (h : cg.pingTime = none) : applyPingFix cg st = (cg, st) := by
  unfold applyPingFix; rw [h]

theorem applyPingFix_norev (cg : GroupDataset) (st : CombineState) (pt : List Int)
    (h : cg.pingTime = some pt) (hr : exist_reversed_time pt = false) :
    applyPingFix cg st = (cg, st) := by
  unfold applyPingFix; rw [h]; simp [hr]

theorem applyPingFix_first (cg : GroupDataset) (st : CombineState) (pt : List Int)
    (h : cg.pingTime = some pt) (hr : exist_reversed_time pt = true)
    (ho : st.old_ping_time = none) :
    applyPingFix cg st =
      ({ cg with pingTime := some (coerce_increasing_time pt) },
       { old_ping_time := some pt
       , new_ping_time := some (coerce_increasing_time pt)
       , old_attrs := st.old_attrs
       , warnings := st.warnings ++ [reversal_warning] }) := by
  unfold applyPingFix; rw [h]; simp [hr, ho]

theorem applyPingFix_later (cg : GroupDataset) (st : CombineState) (pt : List Int)
    (o : List Int) (h : cg.pingTime = some pt) (hr : exist_reversed_time pt = true)
    (ho : st.old_ping_time = some o) :
    applyPingFix cg st = ({ cg with pingTime := st.new_ping_time }, st) := by
  unfold applyPingFix; rw [h]; simp [hr, ho]

/-! ### Lemmas about the concatenation backend -/

theorem mergeAttrsPolicy_override (ms : List AttrMap) :
    mergeAttrsPolicy "override" ms = .ok (ms.headD []) := rfl

theorem mergeAttrsPolicy_drop (ms : List AttrMap) :
    mergeAttrsPolicy "drop" ms = .ok [] := rfl

theorem mergeAttrsPolicy_no_validation (p : String) (ms : List AttrMap) (msg : String) :
    mergeAttrsPolicy p ms ≠ .error (.validation msg) := by
  unfold mergeAttrsPolicy
  intro h
  split at h
  · exact Except.noConfusion h
  · split at h
    · exact Except.noConfusion h
    · split at h
      · split at h
        · exact Except.noConfusion h
        · split at h
          · exact Except.noConfusion h
          · simp at h
      · split at h
        · split at h
          · simp at h
          · exact Except.noConfusion h
        · simp at h

theorem combineNested_no_validation (dss : List GroupDataset) (dim p : String) (msg : String) :
    combineNested dss dim p ≠ .error (.validation msg) := by
  unfold combineNested
  intro h
  match dss with
  | [] => simp at h
  | d :: rest =>
    simp only at h
    split at h
    · rename_i e heq
      cases h
      exact mergeAttrsPolicy_no_validation p _ msg heq
    · exact Except.noConfusion h

theorem combineNested_ok_fields (d : GroupDataset) (rest : List GroupDataset)
    (dim p : String) (cg : GroupDataset)
    (h : combineNested (d :: rest) dim p = .ok cg) :
    ∃ att, mergeAttrsPolicy p ((d :: rest).map (fun x => x.attrs)) = .ok att ∧
      cg = ⟨setDimSize d.dims dim (((d :: rest).map (fun x => sizeAlong x dim)).sum),
            joinPings ((d :: rest).filterMap (fun x => x.pingTime)),
            d.vars, att⟩ := by
  rw [combineNested] at h
  split at h
  · exact Except.noConfusion h
  · rename_i att heq
    exact ⟨att, heq, by cases h; rfl⟩

/-! ### Lemmas about the per-group step -/

theorem step_empty (m p g : String) (eds : List EchoData) (st : CombineState)
    (h : eds.filterMap (fun ed => ed.getGroup g) = []) :
    combineGroupStep m p g eds st = .ok (none, st) := by
  unfold combineGroupStep
  rw [h]
  rfl

theorem step_ok_struct (m p g : String) (eds : List EchoData) (st : CombineState)
    (out : Option GroupDataset) (st' : CombineState) (d : GroupDataset)
    (rest : List GroupDataset)
    (hf : eds.filterMap (fun ed => ed.getGroup g) = d :: rest)
    (h : combineGroupStep m p g eds st = .ok (out, st')) :
    ∃ cg0, combineNested (d :: rest) (concatDimFor m g) (effective_policy p) = .ok cg0 ∧
      out = some (applyPingFix (applyAttrsFix p (d :: rest) cg0)
                    (recordOldAttrs g (d :: rest) st)).1 ∧
      st' = (applyPingFix (applyAttrsFix p (d :: rest) cg0)
                    (recordOldAttrs g (d :: rest) st)).2 := by
  unfold combineGroupStep at h
  rw [hf, combineGroupCore] at h
  split at h
  · exact Except.noConfusion h
  · rename_i cg0 heq
    refine ⟨cg0, heq, ?_, ?_⟩ <;> cases h <;> rfl

theorem step_no_validation (m p g : String) (eds : List EchoData) (st : CombineState)
    (msg : String) : combineGroupStep m p g eds st ≠ .error (.validation msg) := by
  unfold combineGroupStep
  intro h
  cases hf : eds.filterMap (fun ed => ed.getGroup g) with
  | nil =>
    rw [hf, combineGroupCore] at h
    exact Except.noConfusion h
  | cons d rest =>
    rw [hf, combineGroupCore] at h
    split at h
    · rename_i e heq
      cases h
      exact combineNested_no_validation _ _ _ msg heq
    · exact Except.noConfusion h

theorem rawConcat_of_step (m p g : String) (eds : List EchoData)
    (d : GroupDataset) (rest : List GroupDataset) (cg0 : GroupDataset)
    (hf : eds.filterMap (fun ed => ed.getGroup g) = d :: rest)
    (hcn : combineNested (d :: rest) (concatDimFor m g) (effective_policy p) = .ok cg0) :
    rawConcat m p eds g = some cg0 := by
  unfold rawConcat
  rw [hf]
  show (combineNested (d :: rest) (concatDimFor m g) (effective_policy p)).toOption = some cg0
  rw [hcn]
  rfl

theorem rawConcat_empty (m p g : String) (eds : List EchoData)
    (hf : eds.filterMap (fun ed => ed.getGroup g) = []) :
    rawConcat m p eds g = none := by
  unfold rawConcat
  rw [hf]

/-! ### Lemmas about the group loop -/

theorem isConcatGroup_ne (g : String) (h : isConcatGroup g = true) :
    g ≠ "top" ∧ g ≠ "sonar" ∧ g ≠ "provenance" := by
  simp only [isConcatGroup, Bool.and_eq_true, Bool.not_eq_true', beq_eq_false_iff_ne,
    ne_eq] at h
  exact ⟨h.1.1, h.1.2, h.2⟩

theorem groupHandle_special (m p g : String) (eds : List EchoData) (st : CombineState)
    (h : g = "top" ∨ g = "sonar") :
    groupHandle m p g eds st = .ok ((eds.headD EchoData.empty).getGroup g, st) := by
  unfold groupHandle
  rw [if_pos h]

theorem groupHandle_provenance (m p : String) (eds : List EchoData) (st : CombineState) :
    groupHandle m p "provenance" eds st =
      .ok (some (assemble_combined_provenance (eds.map originOf)), st) := by
  rfl

theorem groupHandle_concat (m p g : String) (eds : List EchoData) (st : CombineState)
    (h : isConcatGroup g = true) :
    groupHandle m p g eds st = combineGroupStep m p g eds st := by
  obtain ⟨h1, h2, h3⟩ := isConcatGroup_ne g h
  unfold groupHandle
  rw [if_neg (by simp [h1, h2]), if_neg h3]

theorem processGroups_cons (m p : String) (eds : List EchoData) (g : String)
    (rest : List String) (acc : EchoData) (st : CombineState) :
    processGroups m p eds (g :: rest) acc st =
      match groupHandle m p g eds st with
      | .error e => .error e
      | .ok (cgOpt, st') =>
        processGroups m p eds rest (acc.setGroup g (cgOpt.map drop_concat_dim)) st' := by
  rfl

theorem pg_preserve (m p : String) (eds : List EchoData) :
    ∀ (gs : List String) (acc : EchoData) (st : CombineState) (r : EchoData)
      (stf : CombineState) (g : String), g ∉ gs →
      processGroups m p eds gs acc st = .ok (r, stf) →
      r.getGroup g = acc.getGroup g := by
  intro gs
  induction gs with
  | nil =>
    intro acc st r stf g _ h
    cases h
    rfl
  | cons g' rest ih =>
    intro acc st r stf g hmem h
    rw [processGroups_cons] at h
    split at h
    · exact Except.noConfusion h
    · rename_i cgOpt st' _
      have hne : g ≠ g' := fun hc => hmem (hc ▸ List.mem_cons_self g' rest)
      have htail : g ∉ rest := fun hc => hmem (List.mem_cons_of_mem g' hc)
      rw [ih _ _ _ _ g htail h]
      exact getGroup_setGroup_ne acc g' g _ hne

theorem groupHandle_no_validation (m p g : String) (eds : List EchoData)
    (st : CombineState) (msg : String) :
    groupHandle m p g eds st ≠ .error (.validation msg) := by
  unfold groupHandle
  split
  · exact fun h => Except.noConfusion h
  · split
    · exact fun h => Except.noConfusion h
    · exact step_no_validation m p g eds st msg

theorem pg_no_validation (m p : String) (eds : List EchoData) :
    ∀ (gs : List String) (acc : EchoData) (st : CombineState) (msg : String),
      processGroups m p eds gs acc st ≠ .error (.validation msg) := by
  intro gs
  induction gs with
  | nil => intro acc st msg h; exact Except.noConfusion h
  | cons g rest ih =>
    intro acc st msg h
    rw [processGroups_cons] at h
    split at h
    · rename_i e heq
      cases h
      exact groupHandle_no_validation m p g eds st msg heq
    · exact ih _ _ msg h

/-- How each ordinary group's time coordinate looks after the loop ran over
`gs`: groups without a detected reversal keep their concatenated coordinate,
groups with one carry the (single) corrected axis `fixAxis`. -/
def pingsAfter (m p : String) (eds : List EchoData) (fixAxis : Option (List Int))
    (gs : List String) (r : EchoData) : Prop :=
  ∀ g, g ∈ gs → isConcatGroup g = true →
    ((rawPing m p eds g = none →
        r.getGroup g = none ∨ ∃ cg, r.getGroup g = some cg ∧ cg.pingTime = none) ∧
     (∀ pt, rawPing m p eds g = some pt →
        ∃ cg, r.getGroup g = some cg ∧
          cg.pingTime = (if exist_reversed_time pt = true then fixAxis else some pt)))

theorem step_B (m p g : String) (eds : List EchoData) (st : CombineState)
    (out : Option GroupDataset) (st' : CombineState) (o nw : List Int)
    (ho : st.old_ping_time = some o) (hn : st.new_ping_time = some nw)
    (h : combineGroupStep m p g eds st = .ok (out, st')) :
    st'.old_ping_time = some o ∧ st'.new_ping_time = some nw ∧
    st'.warnings = st.warnings ∧
    (rawPing m p eds g = none → out = none ∨ ∃ cg, out = some cg ∧ cg.pingTime = none) ∧
    (∀ pt, rawPing m p eds g = some pt →
      ∃ cg, out = some cg ∧
        cg.pingTime = (if exist_reversed_time pt = true then some nw else some pt)) := by
  cases hf : eds.filterMap (fun ed => ed.getGroup g) with
  | nil =>
    rw [step_empty m p g eds st hf] at h
    cases h
    have hrp : rawPing m p eds g = none := by
      rw [rawPing, rawConcat_empty m p g eds hf]; rfl
    exact ⟨ho, hn, rfl, fun _ => Or.inl rfl, fun pt hpt => by rw [hrp] at hpt; cases hpt⟩
  | cons d rest =>
    obtain ⟨cg0, hcn, hout, hst⟩ := step_ok_struct m p g eds st out st' d rest hf h
    have hrp : rawPing m p eds g = cg0.pingTime := by
      rw [rawPing, rawConcat_of_step m p g eds d rest cg0 hf hcn]; rfl
    have hping1 : (applyAttrsFix p (d :: rest) cg0).pingTime = cg0.pingTime :=
      applyAttrsFix_pingTime p (d :: rest) cg0
    have ho1 : (recordOldAttrs g (d :: rest) st).old_ping_time = some o := by
      rw [recordOldAttrs_old_ping, ho]
    have hn1 : (recordOldAttrs g (d :: rest) st).new_ping_time = some nw := by
      rw [recordOldAttrs_new_ping, hn]
    have hw1 : (recordOldAttrs g (d :: rest) st).warnings = st.warnings :=
      recordOldAttrs_warnings g (d :: rest) st
    cases hpt : cg0.pingTime with
    | none =>
      rw [applyPingFix_no_ping _ _ (hping1.trans hpt)] at hout hst
      subst hout hst
      refine ⟨ho1, hn1, hw1, fun _ => Or.inr ⟨_, rfl, hping1.trans hpt⟩, ?_⟩
      intro pt hp
      rw [hrp, hpt] at hp
      cases hp
    | some pt =>
      cases hrev : exist_reversed_time pt with
      | false =>
        rw [applyPingFix_norev _ _ pt (hping1.trans hpt) hrev] at hout hst
        subst hout hst
        refine ⟨ho1, hn1, hw1, ?_, ?_⟩
        · intro hp; rw [hrp, hpt] at hp; cases hp
        · intro pt' hp
          rw [hrp, hpt] at hp
          cases hp
          exact ⟨_, rfl, by rw [hping1.trans hpt, hrev]; simp⟩
      | true =>
        rw [applyPingFix_later _ _ pt o (hping1.trans hpt) hrev ho1] at hout hst
        subst hout hst
        refine ⟨ho1, hn1, hw1, ?_, ?_⟩
        · intro hp; rw [hrp, hpt] at hp; cases hp
        · intro pt' hp
          rw [hrp, hpt] at hp
          cases hp
          exact ⟨_, rfl, by simp [hrev, hn1]⟩

theorem step_A (m p g : String) (eds : List EchoData) (st : CombineState)
    (out : Option GroupDataset) (st' : CombineState)
    (ho : st.old_ping_time = none) (hn : st.new_ping_time = none)
    (h : combineGroupStep m p g eds st = .ok (out, st')) :
    (revAt m p eds g = false →
      st'.old_ping_time = none ∧ st'.new_ping_time = none ∧
      st'.warnings = st.warnings ∧
      (rawPing m p eds g = none → out = none ∨ ∃ cg, out = some cg ∧ cg.pingTime = none) ∧
      (∀ pt, rawPing m p eds g = some pt → ∃ cg, out = some cg ∧ cg.pingTime = some pt)) ∧
    (revAt m p eds g = true →
      ∃ pt₀, rawPing m p eds g = some pt₀ ∧ exist_reversed_time pt₀ = true ∧
        st'.old_ping_time = some pt₀ ∧
        st'.new_ping_time = some (coerce_increasing_time pt₀) ∧
        st'.warnings = st.warnings ++ [reversal_warning] ∧
        ∃ cg, out = some cg ∧ cg.pingTime = some (coerce_increasing_time pt₀)) := by
  cases hf : eds.filterMap (fun ed => ed.getGroup g) with
  | nil =>
    rw [step_empty m p g eds st hf] at h
    cases h
    have hrp : rawPing m p eds g = none := by
      rw [rawPing, rawConcat_empty m p g eds hf]; rfl
    have hrev : revAt m p eds g = false := by rw [revAt, hrp]
    constructor
    · exact fun _ => ⟨ho, hn, rfl, fun _ => Or.inl rfl,
        fun pt hpt => by rw [hrp] at hpt; cases hpt⟩
    · intro hc; rw [hrev] at hc; cases hc
  | cons d rest =>
    obtain ⟨cg0, hcn, hout, hst⟩ := step_ok_struct m p g eds st out st' d rest hf h
    have hrp : rawPing m p eds g = cg0.pingTime := by
      rw [rawPing, rawConcat_of_step m p g eds d rest cg0 hf hcn]; rfl
    have hping1 : (applyAttrsFix p (d :: rest) cg0).pingTime = cg0.pingTime :=
      applyAttrsFix_pingTime p (d :: rest) cg0
    have ho1 : (recordOldAttrs g (d :: rest) st).old_ping_time = none := by
      rw [recordOldAttrs_old_ping, ho]
    have hn1 : (recordOldAttrs g (d :: rest) st).new_ping_time = none := by
      rw [recordOldAttrs_new_ping, hn]
    have hw1 : (recordOldAttrs g (d :: rest) st).warnings = st.warnings :=
      recordOldAttrs_warnings g (d :: rest) st
    cases hpt : cg0.pingTime with
    | none =>
      have hrev : revAt m p eds g = false := by rw [revAt, hrp, hpt]
      rw [applyPingFix_no_ping _ _ (hping1.trans hpt)] at hout hst
      subst hout hst
      constructor
      · exact fun _ => ⟨ho1, hn1, hw1, fun _ => Or.inr ⟨_, rfl, hping1.trans hpt⟩,
          fun pt hp => by rw [hrp, hpt] at hp; cases hp⟩
      · intro hc; rw [hrev] at hc; cases hc
    | some pt =>
      have hrev : revAt m p eds g = exist_reversed_time pt := by rw [revAt, hrp, hpt]
      cases hre : exist_reversed_time pt with
      | false =>
        rw [applyPingFix_norev _ _ pt (hping1.trans hpt) hre] at hout hst
        subst hout hst
        constructor
        · intro _
          refine ⟨ho1, hn1, hw1, ?_, ?_⟩
          · intro hp; rw [hrp, hpt] at hp; cases hp
          · intro pt' hp
            rw [hrp, hpt] at hp
            cases hp
            exact ⟨_, rfl, hping1.trans hpt⟩
        · intro hc; rw [hrev, hre] at hc; cases hc
      | true =>
        rw [applyPingFix_first _ _ pt (hping1.trans hpt) hre ho1] at hout hst
        subst hout hst
        constructor
        · intro hc; rw [hrev, hre] at hc; cases hc
        · intro _
          exact ⟨pt, hrp.trans hpt, hre, rfl, rfl, by rw [hw1], _, rfl, rfl⟩

theorem isConcatGroup_of_ne (g : String) (h1 : g ≠ "top") (h2 : g ≠ "sonar")
    (h3 : g ≠ "provenance") : isConcatGroup g = true := by
  simp [isConcatGroup, h1, h2, h3]

theorem isConcatGroup_false_of_special (g : String) (h : g = "top" ∨ g = "sonar" ∨ g = "provenance") :
    isConcatGroup g = false := by
  rcases h with h | h | h <;> subst h <;> rfl

theorem pg_B (m p : String) (eds : List EchoData) :
    ∀ (gs : List String) (acc : EchoData) (st : CombineState) (r : EchoData)
      (stf : CombineState) (o nw : List Int), gs.Nodup →
      st.old_ping_time = some o → st.new_ping_time = some nw →
      processGroups m p eds gs acc st = .ok (r, stf) →
      stf.old_ping_time = some o ∧ stf.new_ping_time = some nw ∧
      stf.warnings = st.warnings ∧ pingsAfter m p eds (some nw) gs r := by
  intro gs
  induction gs with
  | nil =>
    intro acc st r stf o nw _ ho hn h
    cases h
    exact ⟨ho, hn, rfl, fun g hg => absurd hg (List.not_mem_nil g)⟩
  | cons g rest ih =>
    intro acc st r stf o nw hnd ho hn h
    have hgrest : g ∉ rest := (List.nodup_cons.1 hnd).1
    have hndrest : rest.Nodup := (List.nodup_cons.1 hnd).2
    rw [processGroups_cons] at h
    by_cases hspec : g = "top" ∨ g = "sonar"
    · rw [groupHandle_special m p g eds st hspec] at h
      obtain ⟨h1, h2, h3, h4⟩ := ih _ _ _ _ o nw hndrest ho hn h
      refine ⟨h1, h2, h3, ?_⟩
      intro g' hg' hcg
      rcases List.mem_cons.1 hg' with hEq | hMem
      · subst hEq
        rw [isConcatGroup_false_of_special g'
          (hspec.elim Or.inl (fun hx => Or.inr (Or.inl hx)))] at hcg
        cases hcg
      · exact h4 g' hMem hcg
    · by_cases hprov : g = "provenance"
      · subst hprov
        rw [groupHandle_provenance] at h
        obtain ⟨h1, h2, h3, h4⟩ := ih _ _ _ _ o nw hndrest ho hn h
        refine ⟨h1, h2, h3, ?_⟩
        intro g' hg' hcg
        rcases List.mem_cons.1 hg' with hEq | hMem
        · subst hEq; cases hcg
        · exact h4 g' hMem hcg
      · push_neg at hspec
        have hcgr : isConcatGroup g = true := isConcatGroup_of_ne g hspec.1 hspec.2 hprov
        rw [groupHandle_concat m p g eds st hcgr] at h
        cases hstep : combineGroupStep m p g eds st with
        | error e => rw [hstep] at h; exact Except.noConfusion h
        | ok pr =>
          obtain ⟨out, st'⟩ := pr
          rw [hstep] at h
          obtain ⟨s1, s2, s3, s4, s5⟩ := step_B m p g eds st out st' o nw ho hn hstep
          obtain ⟨h1, h2, h3, h4⟩ := ih _ _ _ _ o nw hndrest s1 s2 h
          refine ⟨h1, h2, h3.trans s3, ?_⟩
          intro g' hg' hcg
          rcases List.mem_cons.1 hg' with hEq | hMem
          · subst hEq
            have hset : r.getGroup g' = (out.map drop_concat_dim) := by
              rw [pg_preserve m p eds rest _ _ _ _ g' hgrest h]
              exact getGroup_setGroup_same acc g' _
            constructor
            · intro hrp
              rcases s4 hrp with hnone | ⟨cg, hcg', hping⟩
              · left; rw [hset, hnone]; rfl
              · right
                exact ⟨drop_concat_dim cg, by rw [hset, hcg']; rfl,
                  (drop_concat_dim_pingTime cg).trans hping⟩
            · intro pt hrp
              obtain ⟨cg, hcg', hping⟩ := s5 pt hrp
              exact ⟨drop_concat_dim cg, by rw [hset, hcg']; rfl,
                (drop_concat_dim_pingTime cg).trans hping⟩
          · exact h4 g' hMem hcg

theorem pg_A_none (m p : String) (eds : List EchoData) :
    ∀ (gs : List String) (acc : EchoData) (st : CombineState) (r : EchoData)
      (stf : CombineState), gs.Nodup →
      st.old_ping_time = none → st.new_ping_time = none →
      gs.find? (grpRev m p eds) = none →
      processGroups m p eds gs acc st = .ok (r, stf) →
      stf.old_ping_time = none ∧ stf.new_ping_time = none ∧
      stf.warnings = st.warnings ∧ pingsAfter m p eds none gs r := by
  intro gs
  induction gs with
  | nil =>
    intro acc st r stf _ ho hn _ h
    cases h
    exact ⟨ho, hn, rfl, fun g hg => absurd hg (List.not_mem_nil g)⟩
  | cons g rest ih =>
    intro acc st r stf hnd ho hn hfind h
    have hgrest : g ∉ rest := (List.nodup_cons.1 hnd).1
    have hndrest : rest.Nodup := (List.nodup_cons.1 hnd).2
    have hpg : grpRev m p eds g = false := by
      cases hx : grpRev m p eds g with
      | false => rfl
      | true =>
        rw [List.find?_cons_of_pos _ hx] at hfind
        cases hfind
    have hfindrest : rest.find? (grpRev m p eds) = none := by
      rw [List.find?_cons_of_neg _ (by simp [hpg])] at hfind
      exact hfind
    rw [processGroups_cons] at h
    by_cases hspec : g = "top" ∨ g = "sonar"
    · rw [groupHandle_special m p g eds st hspec] at h
      obtain ⟨h1, h2, h3, h4⟩ := ih _ _ _ _ hndrest ho hn hfindrest h
      refine ⟨h1, h2, h3, ?_⟩
      intro g' hg' hcg
      rcases List.mem_cons.1 hg' with hEq | hMem
      · subst hEq
        rw [isConcatGroup_false_of_special g'
          (hspec.elim Or.inl (fun hx => Or.inr (Or.inl hx)))] at hcg
        cases hcg
      · exact h4 g' hMem hcg
    · by_cases hprov : g = "provenance"
      · subst hprov
        rw [groupHandle_provenance] at h
        obtain ⟨h1, h2, h3, h4⟩ := ih _ _ _ _ hndrest ho hn hfindrest h
        refine ⟨h1, h2, h3, ?_⟩
        intro g' hg' hcg
        rcases List.mem_cons.1 hg' with hEq | hMem
        · subst hEq; cases hcg
        · exact h4 g' hMem hcg
      · push_neg at hspec
        have hcgr : isConcatGroup g = true := isConcatGroup_of_ne g hspec.1 hspec.2 hprov
        have hrev : revAt m p eds g = false := by
          cases hx : revAt m p eds g with
          | false => rfl
          | true => rw [grpRev, hcgr, hx] at hpg; cases hpg
        rw [groupHandle_concat m p g eds st hcgr] at h
        cases hstep : combineGroupStep m p g eds st with
        | error e => rw [hstep] at h; exact Except.noConfusion h
        | ok pr =>
          obtain ⟨out, st'⟩ := pr
          rw [hstep] at h
          obtain ⟨s1, s2, s3, s4, s5⟩ :=
            (step_A m p g eds st out st' ho hn hstep).1 hrev
          obtain ⟨h1, h2, h3, h4⟩ := ih _ _ _ _ hndrest s1 s2 hfindrest h
          refine ⟨h1, h2, h3.trans s3, ?_⟩
          intro g' hg' hcg
          rcases List.mem_cons.1 hg' with hEq | hMem
          · subst hEq
            have hset : r.getGroup g' = (out.map drop_concat_dim) := by
              rw [pg_preserve m p eds rest _ _ _ _ g' hgrest h]
              exact getGroup_setGroup_same acc g' _
            constructor
            · intro hrp
              rcases s4 hrp with hnone | ⟨cg, hcg', hping⟩
              · left; rw [hset, hnone]; rfl
              · right
                exact ⟨drop_concat_dim cg, by rw [hset, hcg']; rfl,
                  (drop_concat_dim_pingTime cg).trans hping⟩
            · intro pt hrp
              obtain ⟨cg, hcg', hping⟩ := s5 pt hrp
              have hre : exist_reversed_time pt = false := by
                rw [revAt, hrp] at hrev
                exact hrev
              refine ⟨drop_concat_dim cg, by rw [hset, hcg']; rfl, ?_⟩
              rw [hre]
              exact (drop_concat_dim_pingTime cg).trans hping
          · exact h4 g' hMem hcg

theorem pg_A_some (m p : String) (eds : List EchoData) :
    ∀ (gs : List String) (acc : EchoData) (st : CombineState) (r : EchoData)
      (stf : CombineState) (g₀ : String), gs.Nodup →
      st.old_ping_time = none → st.new_ping_time = none →
      gs.find? (grpRev m p eds) = some g₀ →
      processGroups m p eds gs acc st = .ok (r, stf) →
      ∃ pt₀, rawPing m p eds g₀ = some pt₀ ∧ exist_reversed_time pt₀ = true ∧
        stf.old_ping_time = some pt₀ ∧
        stf.new_ping_time = some (coerce_increasing_time pt₀) ∧
        stf.warnings = st.warnings ++ [reversal_warning] ∧
        pingsAfter m p eds (some (coerce_increasing_time pt₀)) gs r := by
  intro gs
  induction gs with
  | nil =>
    intro acc st r stf g₀ _ _ _ hfind _
    cases hfind
  | cons g rest ih =>
    intro acc st r stf g₀ hnd ho hn hfind h
    have hgrest : g ∉ rest := (List.nodup_cons.1 hnd).1
    have hndrest : rest.Nodup := (List.nodup_cons.1 hnd).2
    rw [processGroups_cons] at h
    cases hpg : grpRev m p eds g with
    | true =>
      rw [List.find?_cons_of_pos _ hpg] at hfind
      cases hfind
      have hcgr : isConcatGroup g = true := by
        rw [grpRev, Bool.and_eq_true] at hpg
        exact hpg.1
      have hrevg : revAt m p eds g = true := by
        rw [grpRev, Bool.and_eq_true] at hpg
        exact hpg.2
      rw [groupHandle_concat m p g eds st hcgr] at h
      cases hstep : combineGroupStep m p g eds st with
      | error e => rw [hstep] at h; exact Except.noConfusion h
      | ok pr =>
        obtain ⟨out, st'⟩ := pr
        rw [hstep] at h
        obtain ⟨pt₀, hrp, hre, s1, s2, s3, cg, hout, hping⟩ :=
          (step_A m p g eds st out st' ho hn hstep).2 hrevg
        obtain ⟨h1, h2, h3, h4⟩ :=
          pg_B m p eds rest _ _ _ _ pt₀ (coerce_increasing_time pt₀) hndrest s1 s2 h
        refine ⟨pt₀, hrp, hre, h1, h2, h3.trans s3, ?_⟩
        intro g' hg' hcg
        rcases List.mem_cons.1 hg' with hEq | hMem
        · subst hEq
          have hset : r.getGroup g' = (out.map drop_concat_dim) := by
            rw [pg_preserve m p eds rest _ _ _ _ g' hgrest h]
            exact getGroup_setGroup_same acc g' _
          constructor
          · intro hrpn
            rw [hrpn] at hrp
            cases hrp
          · intro pt hrp'
            rw [hrp'] at hrp
            cases hrp
            refine ⟨drop_concat_dim cg, by rw [hset, hout]; rfl, ?_⟩
            rw [hre]
            exact (drop_concat_dim_pingTime cg).trans hping
        · exact h4 g' hMem hcg
    | false =>
      rw [List.find?_cons_of_neg _ (by simp [hpg])] at hfind
      by_cases hspec : g = "top" ∨ g = "sonar"
      · rw [groupHandle_special m p g eds st hspec] at h
        obtain ⟨pt₀, hrp, hre, h1, h2, h3, h4⟩ := ih _ _ _ _ g₀ hndrest ho hn hfind h
        refine ⟨pt₀, hrp, hre, h1, h2, h3, ?_⟩
        intro g' hg' hcg
        rcases List.mem_cons.1 hg' with hEq | hMem
        · subst hEq
          rw [isConcatGroup_false_of_special g'
            (hspec.elim Or.inl (fun hx => Or.inr (Or.inl hx)))] at hcg
          cases hcg
        · exact h4 g' hMem hcg
      · by_cases hprov : g = "provenance"
        · subst hprov
          rw [groupHandle_provenance] at h
          obtain ⟨pt₀, hrp, hre, h1, h2, h3, h4⟩ := ih _ _ _ _ g₀ hndrest ho hn hfind h
          refine ⟨pt₀, hrp, hre, h1, h2, h3, ?_⟩
          intro g' hg' hcg
          rcases List.mem_cons.1 hg' with hEq | hMem
          · subst hEq; cases hcg
          · exact h4 g' hMem hcg
        · push_neg at hspec
          have hcgr : isConcatGroup g = true := isConcatGroup_of_ne g hspec.1 hspec.2 hprov
          have hrev : revAt m p eds g = false := by
            cases hx : revAt m p eds g with
            | false => rfl
            | true => rw [grpRev, hcgr, hx] at hpg; cases hpg
          rw [groupHandle_concat m p g eds st hcgr] at h
          cases hstep : combineGroupStep m p g eds st with
          | error e => rw [hstep] at h; exact Except.noConfusion h
          | ok pr =>
            obtain ⟨out, st'⟩ := pr
            rw [hstep] at h
            obtain ⟨s1, s2, s3, s4, s5⟩ :=
              (step_A m p g eds st out st' ho hn hstep).1 hrev
            obtain ⟨pt₀, hrp, hre, h1, h2, h3, h4⟩ := ih _ _ _ _ g₀ hndrest s1 s2 hfind h
            refine ⟨pt₀, hrp, hre, h1, h2, by rw [h3, s3], ?_⟩
            intro g' hg' hcg
            rcases List.mem_cons.1 hg' with hEq | hMem
            · subst hEq
              have hset : r.getGroup g' = (out.map drop_concat_dim) := by
                rw [pg_preserve m p eds rest _ _ _ _ g' hgrest h]
                exact getGroup_setGroup_same acc g' _
              constructor
              · intro hrpn
                rcases s4 hrpn with hnone | ⟨cg, hcg', hping⟩
                · left; rw [hset, hnone]; rfl
                · right
                  exact ⟨drop_concat_dim cg, by rw [hset, hcg']; rfl,
                    (drop_concat_dim_pingTime cg).trans hping⟩
              · intro pt hrp'
                obtain ⟨cg, hcg', hping⟩ := s5 pt hrp'
                have hreg : exist_reversed_time pt = false := by
                  rw [revAt, hrp'] at hrev
                  exact hrev
                refine ⟨drop_concat_dim cg, by rw [hset, hcg']; rfl, ?_⟩
                rw [hreg]
                exact (drop_concat_dim_pingTime cg).trans hping
            · exact h4 g' hMem hcg

theorem applyPingFix_fst_dims (cg : GroupDataset) (st : CombineState) :
    (applyPingFix cg st).1.dims = cg.dims := by
  unfold applyPingFix
  split
  · rfl
  · split
    · split <;> rfl
    · rfl

theorem applyPingFix_fst_attrs (cg : GroupDataset) (st : CombineState) :
    (applyPingFix cg st).1.attrs = cg.attrs := by
  unfold applyPingFix
  split
  · rfl
  · split
    · split <;> rfl
    · rfl

theorem applyPingFix_fst_vars (cg : GroupDataset) (st : CombineState) :
    (applyPingFix cg st).1.vars = cg.vars := by
  unfold applyPingFix
  split
  · rfl
  · split
    · split <;> rfl
    · rfl

theorem effective_policy_ne (p : String) (h : p ≠ "overwrite_conflicts") :
    effective_policy p = p := by
  unfold effective_policy
  rw [if_neg h]

theorem effective_policy_ow : effective_policy "overwrite_conflicts" = "drop" := rfl

theorem pg_prov (m p : String) (eds : List EchoData) :
    ∀ (gs : List String) (acc : EchoData) (st : CombineState) (r : EchoData)
      (stf : CombineState), gs.Nodup → "provenance" ∈ gs →
      processGroups m p eds gs acc st = .ok (r, stf) →
      r.getGroup "provenance" =
        some (drop_concat_dim (assemble_combined_provenance (eds.map originOf))) := by
  intro gs
  induction gs with
  | nil => intro acc st r stf _ hmem _; cases hmem
  | cons g rest ih =>
    intro acc st r stf hnd hmem h
    have hndrest : rest.Nodup := (List.nodup_cons.1 hnd).2
    rw [processGroups_cons] at h
    by_cases hg : g = "provenance"
    · subst hg
      rw [groupHandle_provenance] at h
      have hnotin : "provenance" ∉ rest := (List.nodup_cons.1 hnd).1
      rw [pg_preserve m p eds rest _ _ _ _ "provenance" hnotin h]
      exact getGroup_setGroup_same acc "provenance" _
    · have hmem' : "provenance" ∈ rest := by
        rcases List.mem_cons.1 hmem with hEq | hMem
        · exact absurd hEq.symm hg
        · exact hMem
      split at h
      · exact Except.noConfusion h
      · exact ih _ _ _ _ hndrest hmem' h

theorem pg_shape (m p : String) (eds : List EchoData) :
    ∀ (gs : List String) (acc : EchoData) (st : CombineState) (r : EchoData)
      (stf : CombineState) (g : String), gs.Nodup → g ∈ gs → isConcatGroup g = true →
      processGroups m p eds gs acc st = .ok (r, stf) →
      (eds.filterMap (fun ed => ed.getGroup g) = [] → r.getGroup g = none) ∧
      (∀ d rest2, eds.filterMap (fun ed => ed.getGroup g) = d :: rest2 →
        ∃ cg, r.getGroup g = some cg ∧
          cg.dims = (setDimSize d.dims (concatDimFor m g)
              (((d :: rest2).map (fun x => sizeAlong x (concatDimFor m g))).sum)).filter
              (fun pr => !(pr.1 == "concat_dim")) ∧
          some cg.attrs = expectedAttrs p (d :: rest2) ∧
          cg.vars = d.vars) := by
  intro gs
  induction gs with
  | nil => intro acc st r stf g _ hmem _ _; cases hmem
  | cons g' rest ih =>
    intro acc st r stf g hnd hmem hcgr h
    have hndrest : rest.Nodup := (List.nodup_cons.1 hnd).2
    rw [processGroups_cons] at h
    by_cases hg : g = g'
    · subst hg
      have hnotin : g ∉ rest := (List.nodup_cons.1 hnd).1
      rw [groupHandle_concat m p g eds st hcgr] at h
      cases hstep : combineGroupStep m p g eds st with
      | error e => rw [hstep] at h; exact Except.noConfusion h
      | ok pr =>
        obtain ⟨out, st'⟩ := pr
        rw [hstep] at h
        have hset : r.getGroup g = (out.map drop_concat_dim) := by
          rw [pg_preserve m p eds rest _ _ _ _ g hnotin h]
          exact getGroup_setGroup_same acc g _
        constructor
        · intro hf
          rw [step_empty m p g eds st hf] at hstep
          cases hstep
          rw [hset]
          rfl
        · intro d rest2 hf
          obtain ⟨cg0, hcn, hout, _⟩ := step_ok_struct m p g eds st out st' d rest2 hf hstep
          obtain ⟨att, hmerge, hcg0⟩ := combineNested_ok_fields d rest2 _ _ cg0 hcn
          set cg1 := applyAttrsFix p (d :: rest2) cg0 with hcg1
          set cg2 := (applyPingFix cg1 (recordOldAttrs g (d :: rest2) st)).1 with hcg2
          refine ⟨drop_concat_dim cg2, by rw [hset, hout]; rfl, ?_, ?_, ?_⟩
          · show cg2.dims.filter (fun pr => !(pr.1 == "concat_dim")) = _
            rw [hcg2, applyPingFix_fst_dims, hcg1, applyAttrsFix_dims, hcg0]
          · show some cg2.attrs = _
            rw [hcg2, applyPingFix_fst_attrs, hcg1, applyAttrsFix_attrs]
            unfold expectedAttrs
            by_cases how : p = "overwrite_conflicts"
            · rw [if_pos how, if_pos how]
            · rw [if_neg how, if_neg how]
              rw [effective_policy_ne p how] at hmerge
              rw [hmerge, hcg0]
              rfl
          · show cg2.vars = d.vars
            rw [hcg2, applyPingFix_fst_vars, hcg1, applyAttrsFix_vars, hcg0]
    · have hmem' : g ∈ rest := by
        rcases List.mem_cons.1 hmem with hEq | hMem
        · exact absurd hEq hg
        · exact hMem
      split at h
      · exact Except.noConfusion h
      · exact ih _ _ _ _ g hndrest hmem' hcgr h

/-! ### Lemmas about the validation loop -/

theorem FS_ok_some : ∀ (eds : List EchoData) (m : String) (sm' : Option String),
    find_sonar_model eds (some m) = .ok sm' →
    sm' = some m ∧ ∀ ed ∈ eds, ed.sonar_model = some m := by
  intro eds
  induction eds with
  | nil =>
    intro m sm' h
    cases h
    exact ⟨rfl, by intro ed hed; cases hed⟩
  | cons ed rest ih =>
    intro m sm' h
    rw [find_sonar_model] at h
    cases hm : ed.sonar_model with
    | none => rw [hm] at h; exact Except.noConfusion h
    | some m' =>
      rw [hm] at h
      dsimp only at h
      by_cases hne : m' ≠ m
      · rw [if_pos hne] at h
        exact Except.noConfusion h
      · rw [if_neg hne] at h
        push_neg at hne
        subst hne
        obtain ⟨h1, h2⟩ := ih _ sm' h
        refine ⟨h1, ?_⟩
        intro e he
        rcases List.mem_cons.1 he with hEq | hMem
        · subst hEq; exact hm
        · exact h2 e hMem

theorem FS_ok_none : ∀ (eds : List EchoData) (sm' : Option String),
    find_sonar_model eds none = .ok sm' →
    (eds = [] ∧ sm' = none) ∨
    (∃ mm, sm' = some mm ∧ ∀ ed ∈ eds, ed.sonar_model = some mm) := by
  intro eds sm' h
  cases eds with
  | nil => cases h; exact Or.inl ⟨rfl, rfl⟩
  | cons ed rest =>
    rw [find_sonar_model] at h
    cases hm : ed.sonar_model with
    | none => rw [hm] at h; exact Except.noConfusion h
    | some m' =>
      rw [hm] at h
      obtain ⟨h1, h2⟩ := FS_ok_some rest m' sm' h
      refine Or.inr ⟨m', h1, ?_⟩
      intro e he
      rcases List.mem_cons.1 he with hEq | hMem
      · subst hEq; exact hm
      · exact h2 e hMem

theorem FS_err_char : ∀ (eds : List EchoData) (sm : Option String) (msg : String),
    find_sonar_model eds sm = .error msg →
    (∃ ed ∈ eds, ed.sonar_model = none) ∨
    (∃ ed ∈ eds, ∃ m0, sm = some m0 ∧ ed.sonar_model ≠ some m0) ∨
    (∃ e1 ∈ eds, ∃ e2 ∈ eds, e1.sonar_model ≠ e2.sonar_model) := by
  intro eds
  induction eds with
  | nil => intro sm msg h; cases h
  | cons ed rest ih =>
    intro sm msg h
    rw [find_sonar_model] at h
    cases hm : ed.sonar_model with
    | none =>
      exact Or.inl ⟨ed, List.mem_cons_self ed rest, hm⟩
    | some m' =>
      rw [hm] at h
      dsimp only at h
      cases sm with
      | none =>
        rcases ih (some m') msg h with hnull | hmid | hpair
        · obtain ⟨e, he, hen⟩ := hnull
          exact Or.inl ⟨e, List.mem_cons_of_mem ed he, hen⟩
        · obtain ⟨e, he, m0, hm0, hne⟩ := hmid
          cases hm0
          refine Or.inr (Or.inr ⟨ed, List.mem_cons_self ed rest, e,
            List.mem_cons_of_mem ed he, ?_⟩)
          rw [hm]
          exact fun hc => hne hc.symm
        · obtain ⟨e1, he1, e2, he2, hne⟩ := hpair
          exact Or.inr (Or.inr ⟨e1, List.mem_cons_of_mem ed he1, e2,
            List.mem_cons_of_mem ed he2, hne⟩)
      | some m0 =>
        dsimp only at h
        by_cases hne : m' ≠ m0
        · refine Or.inr (Or.inl ⟨ed, List.mem_cons_self ed rest, m0, rfl, ?_⟩)
          rw [hm]
          exact fun hc => hne (Option.some.inj hc)
        · rw [if_neg hne] at h
          push_neg at hne
          subst hne
          rcases ih (some m') msg h with hnull | hmid | hpair
          · obtain ⟨e, he, hen⟩ := hnull
            exact Or.inl ⟨e, List.mem_cons_of_mem ed he, hen⟩
          · obtain ⟨e, he, m0, hm0, hne'⟩ := hmid
            exact Or.inr (Or.inl ⟨e, List.mem_cons_of_mem ed he, m0, hm0, hne'⟩)
          · obtain ⟨e1, he1, e2, he2, hne'⟩ := hpair
            exact Or.inr (Or.inr ⟨e1, List.mem_cons_of_mem ed he1, e2,
              List.mem_cons_of_mem ed he2, hne'⟩)

theorem FS_msgs : ∀ (eds : List EchoData) (sm : Option String) (msg : String),
    find_sonar_model eds sm = .error msg →
    msg = model_null_msg ∨ msg = model_mismatch_msg := by
  intro eds
  induction eds with
  | nil => intro sm msg h; cases h
  | cons ed rest ih =>
    intro sm msg h
    rw [find_sonar_model] at h
    cases hm : ed.sonar_model with
    | none => rw [hm] at h; cases h; exact Or.inl rfl
    | some m' =>
      rw [hm] at h
      dsimp only at h
      cases sm with
      | none => exact ih (some m') msg h
      | some m0 =>
        dsimp only at h
        by_cases hne : m' ≠ m0
        · rw [if_pos hne] at h; cases h; exact Or.inr rfl
        · rw [if_neg hne] at h; exact ih (some m0) msg h

theorem FS_strip : ∀ (eds : List EchoData) (sm : Option String),
    find_sonar_model (eds.map stripGroups) sm = find_sonar_model eds sm := by
  intro eds
  induction eds with
  | nil => intro sm; rfl
  | cons ed rest ih =>
    intro sm
    rw [List.map_cons, find_sonar_model, find_sonar_model]
    have hsm : (stripGroups ed).sonar_model = ed.sonar_model := rfl
    rw [hsm]
    cases ed.sonar_model with
    | none => rfl
    | some m' =>
      cases sm with
      | none => exact ih (some m')
      | some m0 =>
        dsimp only
        by_cases hne : m' ≠ m0
        · rw [if_pos hne, if_pos hne]
        · rw [if_neg hne, if_neg hne]; exact ih (some m0)

theorem combine_unfold (eds : List EchoData) (p : String) (out : CombineOutput)
    (hok : combine_echodata eds p = .ok out) (hne : eds ≠ []) :
    ∃ m r0 stf, find_sonar_model eds none = .ok (some m) ∧
      processGroups m p eds group_map EchoData.empty ⟨none, none, [], []⟩ = .ok (r0, stf) ∧
      out.warnings = stf.warnings ∧
      out.result = attachOldAttrs
        (match stf.old_ping_time with
         | some opt => addProvenanceVar r0 "old_ping_time" (VarVal.ints opt)
         | none => r0) stf.old_attrs := by
  have hemp : eds.isEmpty = false := by
    cases eds with
    | nil => exact absurd rfl hne
    | cons e r => rfl
  unfold combine_echodata at hok
  rw [hemp] at hok
  simp only [Bool.false_eq_true, if_false] at hok
  cases hfs : find_sonar_model eds none with
  | error msg => rw [hfs] at hok; exact Except.noConfusion hok
  | ok sm =>
    rw [hfs] at hok
    rcases FS_ok_none eds sm hfs with ⟨hnil, _⟩ | ⟨mm, hsm, _⟩
    · exact absurd hnil hne
    · subst hsm
      dsimp only at hok
      cases hpg : processGroups ((some mm).getD "") p eds group_map
          EchoData.empty ⟨none, none, [], []⟩ with
      | error e => rw [hpg] at hok; exact Except.noConfusion hok
      | ok pr =>
        obtain ⟨r0, stf⟩ := pr
        rw [hpg] at hok
        cases hok
        exact ⟨mm, r0, stf, rfl, hpg, rfl, rfl⟩

/-! ### Provenance postprocessing lemmas -/

theorem addProv_other (r : EchoData) (n : String) (v : VarVal) (g : String)
    (h : g ≠ "provenance") :
    (addProvenanceVar r n v).getGroup g = r.getGroup g := by
  unfold addProvenanceVar
  cases hp : r.getGroup "provenance" with
  | none => rfl
  | some pg => exact getGroup_setGroup_ne r "provenance" g _ h

theorem attach_other : ∀ (l : List (String × List AttrMap)) (r : EchoData) (g : String),
    g ≠ "provenance" → (attachOldAttrs r l).getGroup g = r.getGroup g := by
  intro l
  induction l with
  | nil => intro r g _; rfl
  | cons pr rest ih =>
    intro r g h
    obtain ⟨g', ms⟩ := pr
    rw [attachOldAttrs, ih _ _ h, addProv_other _ _ _ _ h]

theorem addProv_prov (r : EchoData) (n : String) (v : VarVal) (pg : GroupDataset)
    (h : r.getGroup "provenance" = some pg) :
    (addProvenanceVar r n v).getGroup "provenance" =
      some ⟨pg.dims, pg.pingTime, pg.vars ++ [(n, v)], pg.attrs⟩ := by
  unfold addProvenanceVar
  rw [h]
  exact getGroup_setGroup_same r "provenance" _

theorem attach_prov : ∀ (l : List (String × List AttrMap)) (r : EchoData)
    (pg : GroupDataset), r.getGroup "provenance" = some pg →
    ∃ extra, (attachOldAttrs r l).getGroup "provenance" =
      some ⟨pg.dims, pg.pingTime, pg.vars ++ extra, pg.attrs⟩ := by
  intro l
  induction l with
  | nil =>
    intro r pg h
    refine ⟨[], ?_⟩
    rw [attachOldAttrs, h]
    simp
  | cons pr rest ih =>
    intro r pg h
    obtain ⟨g', ms⟩ := pr
    rw [attachOldAttrs]
    obtain ⟨extra, hx⟩ :=
      ih _ _ (addProv_prov r (g' ++ "_attrs") (VarVal.attrsList ms) pg h)
    refine ⟨[(g' ++ "_attrs", VarVal.attrsList ms)] ++ extra, ?_⟩
    rw [hx]
    simp

/-! ### Dimension bookkeeping lemmas -/

theorem lookupA_filter_ne {α : Type} (k kbad : String) (h : k ≠ kbad) :
    ∀ l : List (String × α),
      lookupA k (l.filter (fun pr => !(pr.1 == kbad))) = lookupA k l := by
  intro l
  induction l with
  | nil => rfl
  | cons pr rest ih =>
    obtain ⟨k', v⟩ := pr
    by_cases hb : k' = kbad
    · subst hb
      rw [List.filter_cons_of_neg (by simp)]
      rw [ih, lookupA, if_neg h]
    · rw [List.filter_cons_of_pos (by simp [hb])]
      rw [lookupA, lookupA]
      by_cases hkk : k = k'
      · rw [if_pos hkk, if_pos hkk]
      · rw [if_neg hkk, if_neg hkk, ih]

theorem any_of_lookup_some {α : Type} (dim : String) :
    ∀ (l : List (String × α)) (v : α), lookupA dim l = some v →
      l.any (fun pr => pr.1 == dim) = true := by
  intro l
  induction l with
  | nil => intro v h; cases h
  | cons pr rest ih =>
    intro v h
    obtain ⟨k, w⟩ := pr
    rw [lookupA] at h
    rw [List.any_cons]
    by_cases hk : dim = k
    · simp [hk.symm]
    · rw [if_neg hk] at h
      rw [ih _ h]
      simp

theorem lookup_none_of_any_false {α : Type} (dim : String) :
    ∀ l : List (String × α), l.any (fun pr => pr.1 == dim) = false →
      lookupA dim l = none := by
  intro l
  induction l with
  | nil => intro _; rfl
  | cons pr rest ih =>
    intro h
    obtain ⟨k, w⟩ := pr
    rw [List.any_cons, Bool.or_eq_false_iff] at h
    rw [lookupA, if_neg (fun hc => by simp [hc.symm] at h), ih h.2]

theorem lookupA_map_replace {α : Type} (dim : String) (n : α) :
    ∀ l : List (String × α), l.any (fun pr => pr.1 == dim) = true →
      lookupA dim (l.map (fun pr => if pr.1 = dim then (pr.1, n) else pr)) = some n := by
  intro l
  induction l with
  | nil => intro h; cases h
  | cons pr rest ih =>
    intro h
    obtain ⟨k, w⟩ := pr
    rw [List.map_cons]
    by_cases hk : k = dim
    · rw [if_pos hk]
      show lookupA dim ((k, n) :: _) = some n
      rw [lookupA, if_pos hk.symm]
    · rw [if_neg hk]
      rw [List.any_cons, Bool.or_eq_true] at h
      rcases h with h | h
      · exact absurd (by simpa using h) hk
      · show lookupA dim ((k, w) :: _) = some n
        rw [lookupA, if_neg (fun hc => hk hc.symm)]
        exact ih h

theorem lookupA_setDimSize (dims : List (String × Nat)) (dim : String) (n : Nat) :
    lookupA dim (setDimSize dims dim n) = some n := by
  unfold setDimSize
  by_cases ha : dims.any (fun pr => pr.1 == dim) = true
  · rw [if_pos ha]
    exact lookupA_map_replace dim n dims ha
  · rw [if_neg ha]
    rw [lookupA_append]
    rw [lookup_none_of_any_false dim dims (Bool.eq_false_iff.2 ha)]
    show optOr none (lookupA dim [(dim, n)]) = some n
    rw [lookupA, if_pos rfl]
    rfl

theorem map_replace_id_of_no_key {α : Type} (dim : String) (n : α) :
    ∀ l : List (String × α), (∀ pr ∈ l, pr.1 ≠ dim) →
      l.map (fun pr => if pr.1 = dim then (pr.1, n) else pr) = l := by
  intro l
  induction l with
  | nil => intro _; rfl
  | cons pr rest ih =>
    intro h
    rw [List.map_cons, if_neg (h pr (List.mem_cons_self pr rest)),
      ih (fun q hq => h q (List.mem_cons_of_mem pr hq))]

theorem map_replace_id {α : Type} (dim : String) :
    ∀ (l : List (String × α)) (v : α), (l.map Prod.fst).Nodup →
      lookupA dim l = some v →
      l.map (fun pr => if pr.1 = dim then (pr.1, v) else pr) = l := by
  intro l
  induction l with
  | nil => intro v _ h; cases h
  | cons pr rest ih =>
    intro v hnd h
    obtain ⟨k, w⟩ := pr
    rw [List.map_cons] at hnd
    have hk_notin : k ∉ rest.map Prod.fst := (List.nodup_cons.1 hnd).1
    rw [lookupA] at h
    by_cases hk : dim = k
    · rw [if_pos hk] at h
      cases h
      rw [List.map_cons, if_pos hk.symm, hk]
      rw [map_replace_id_of_no_key k v rest
        (fun q hq hc => hk_notin (hc ▸ List.mem_map_of_mem Prod.fst hq))]
    · rw [if_neg hk] at h
      rw [List.map_cons, if_neg (fun hc => hk hc.symm),
        ih v (List.nodup_cons.1 hnd).2 h]

theorem setDimSize_id (l : List (String × Nat)) (dim : String) (v : Nat)
    (hnd : (l.map Prod.fst).Nodup) (hl : lookupA dim l = some v) :
    setDimSize l dim v = l := by
  unfold setDimSize
  rw [if_pos (any_of_lookup_some dim l v hl)]
  exact map_replace_id dim l v hnd hl

theorem filter_id_of_no_key {α : Type} (kbad : String) :
    ∀ l : List (String × α), lookupA kbad l = none →
      l.filter (fun pr => !(pr.1 == kbad)) = l := by
  intro l
  induction l with
  | nil => intro _; rfl
  | cons pr rest ih =>
    intro h
    obtain ⟨k, w⟩ := pr
    rw [lookupA] at h
    by_cases hk : kbad = k
    · rw [if_pos hk] at h; cases h
    · rw [if_neg hk] at h
      have hkk : k ≠ kbad := fun hc => hk hc.symm
      rw [List.filter_cons_of_pos (by simp [hkk]), ih h]

theorem concatDimFor_eq (m g : String) : concatDimFor m g = "ping_time" := by
  unfold concatDimFor concat_dims_table
  by_cases h : g = "default" <;> simp [lookupA, h]

/-! ### Support lemmas for the validation claims -/

theorem FS_ok_of_uniform : ∀ (eds : List EchoData) (mm : String),
    (∀ ed ∈ eds, ed.sonar_model = some mm) →
    find_sonar_model eds (some mm) = .ok (some mm) := by
  intro eds
  induction eds with
  | nil => intro mm _; rfl
  | cons ed rest ih =>
    intro mm h
    rw [find_sonar_model, h ed (List.mem_cons_self ed rest)]
    dsimp only
    rw [if_neg (fun hc => hc rfl)]
    exact ih mm (fun e he => h e (List.mem_cons_of_mem ed he))

theorem FS_err_of_cond (eds : List EchoData)
    (hc : (∃ ed ∈ eds, ed.sonar_model = none) ∨
          (∃ e1 ∈ eds, ∃ e2 ∈ eds, e1.sonar_model ≠ e2.sonar_model)) :
    ∃ msg, find_sonar_model eds none = .error msg := by
  cases h : find_sonar_model eds none with
  | error msg => exact ⟨msg, rfl⟩
  | ok sm =>
    rcases FS_ok_none eds sm h with ⟨hnil, _⟩ | ⟨mm, _, hall⟩
    · subst hnil
      rcases hc with ⟨ed, hed, _⟩ | ⟨e1, he1, _⟩
      · exact absurd hed (List.not_mem_nil ed)
      · exact absurd he1 (List.not_mem_nil e1)
    · rcases hc with ⟨ed, hed, hnone⟩ | ⟨e1, he1, e2, he2, hne⟩
      · rw [hall ed hed] at hnone; cases hnone
      · exact absurd (by rw [hall e1 he1, hall e2 he2]) hne

theorem combine_of_find_err (eds : List EchoData) (p msg : String) (hne : eds ≠ [])
    (hfs : find_sonar_model eds none = .error msg) :
    combine_echodata eds p = .error (.validation msg) := by
  have hemp : eds.isEmpty = false := by
    cases eds with
    | nil => exact absurd rfl hne
    | cons e r => rfl
  unfold combine_echodata
  rw [hemp]
  simp only [Bool.false_eq_true, if_false]
  rw [hfs]

theorem combine_nil (p : String) :
    combine_echodata [] p = .ok ⟨EchoData.empty, []⟩ := rfl

/-! ### Support lemmas for the attrs-policy claims -/

theorem filterMap_getGroup_nil (eds : List EchoData) (g : String)
    (h : ∀ ed ∈ eds, ed.getGroup g = none) :
    eds.filterMap (fun ed => ed.getGroup g) = [] := by
  induction eds with
  | nil => rfl
  | cons ed rest ih =>
    rw [List.filterMap_cons, h ed (List.mem_cons_self ed rest)]
    exact ih (fun e he => h e (List.mem_cons_of_mem ed he))

theorem step_ow_ok (m g : String) (eds : List EchoData) (st : CombineState) :
    ∃ res, combineGroupStep m "overwrite_conflicts" g eds st = .ok res := by
  cases hf : eds.filterMap (fun ed => ed.getGroup g) with
  | nil => exact ⟨(none, st), step_empty m _ g eds st hf⟩
  | cons d rest =>
    unfold combineGroupStep
    rw [hf, combineGroupCore]
    rw [show effective_policy "overwrite_conflicts" = "drop" from rfl]
    rw [combineNested, mergeAttrsPolicy_drop]
    exact ⟨_, rfl⟩

theorem groupHandle_ow_ok (m g : String) (eds : List EchoData) (st : CombineState) :
    ∃ res, groupHandle m "overwrite_conflicts" g eds st = .ok res := by
  unfold groupHandle
  split
  · exact ⟨_, rfl⟩
  · split
    · exact ⟨_, rfl⟩
    · exact step_ow_ok m g eds st

theorem pg_ow_ok (m : String) (eds : List EchoData) :
    ∀ (gs : List String) (acc : EchoData) (st : CombineState),
      ∃ res, processGroups m "overwrite_conflicts" eds gs acc st = .ok res := by
  intro gs
  induction gs with
  | nil => intro acc st; exact ⟨(acc, st), rfl⟩
  | cons g rest ih =>
    intro acc st
    obtain ⟨res, hres⟩ := groupHandle_ow_ok m g eds st
    obtain ⟨cgOpt, st'⟩ := res
    rw [processGroups_cons, hres]
    exact ih _ st'

theorem pg_policy_indep (m : String) (eds : List EchoData) :
    ∀ (gs : List String) (acc : EchoData) (st : CombineState) (p q : String),
      (∀ g ∈ gs, isConcatGroup g = true →
        eds.filterMap (fun ed => ed.getGroup g) = []) →
      processGroups m p eds gs acc st = processGroups m q eds gs acc st := by
  intro gs
  induction gs with
  | nil => intro acc st p q _; rfl
  | cons g rest ih =>
    intro acc st p q hall
    have htail : ∀ g' ∈ rest, isConcatGroup g' = true →
        eds.filterMap (fun ed => ed.getGroup g') = [] :=
      fun g' hg' => hall g' (List.mem_cons_of_mem g hg')
    rw [processGroups_cons, processGroups_cons]
    by_cases hspec : g = "top" ∨ g = "sonar"
    · rw [groupHandle_special m p g eds st hspec, groupHandle_special m q g eds st hspec]
      exact ih _ _ p q htail
    · by_cases hprov : g = "provenance"
      · subst hprov
        rw [groupHandle_provenance, groupHandle_provenance]
        exact ih _ _ p q htail
      · push_neg at hspec
        have hcgr : isConcatGroup g = true := isConcatGroup_of_ne g hspec.1 hspec.2 hprov
        have hf := hall g (List.mem_cons_self g rest) hcgr
        rw [groupHandle_concat m p g eds st hcgr, groupHandle_concat m q g eds st hcgr,
          step_empty m p g eds st hf, step_empty m q g eds st hf]
        exact ih _ _ p q htail

theorem pg_nogroups_ok (m p : String) (eds : List EchoData) :
    ∀ (gs : List String) (acc : EchoData) (st : CombineState),
      (∀ g ∈ gs, isConcatGroup g = true →
        eds.filterMap (fun ed => ed.getGroup g) = []) →
      ∃ res, processGroups m p eds gs acc st = .ok res := by
  intro gs
  induction gs with
  | nil => intro acc st _; exact ⟨(acc, st), rfl⟩
  | cons g rest ih =>
    intro acc st hall
    have htail : ∀ g' ∈ rest, isConcatGroup g' = true →
        eds.filterMap (fun ed => ed.getGroup g') = [] :=
      fun g' hg' => hall g' (List.mem_cons_of_mem g hg')
    rw [processGroups_cons]
    by_cases hspec : g = "top" ∨ g = "sonar"
    · rw [groupHandle_special m p g eds st hspec]
      exact ih _ _ htail
    · by_cases hprov : g = "provenance"
      · subst hprov
        rw [groupHandle_provenance]
        exact ih _ _ htail
      · push_neg at hspec
        have hcgr : isConcatGroup g = true := isConcatGroup_of_ne g hspec.1 hspec.2 hprov
        rw [groupHandle_concat m p g eds st hcgr,
          step_empty m p g eds st (hall g (List.mem_cons_self g rest) hcgr)]
        exact ih _ _ htail

/-! ### Combine-level bridge lemmas -/

theorem modelOf_eq (eds : List EchoData) (m : String)
    (hfs : find_sonar_model eds none = .ok (some m)) : modelOf eds = some m := by
  unfold modelOf
  rw [hfs]

theorem rawPingTop_eq (eds : List EchoData) (p g m : String)
    (hm : modelOf eds = some m) : rawPingTop eds p g = rawPing m p eds g := by
  unfold rawPingTop
  rw [hm]
  rfl

theorem combineOk_ok (eds : List EchoData) (p : String) (h : combineOk eds p = true) :
    ∃ out, combine_echodata eds p = .ok out := by
  unfold combineOk at h
  cases hc : combine_echodata eds p with
  | ok out => exact ⟨out, rfl⟩
  | error e => rw [hc] at h; cases h

theorem groupOf_eq (eds : List EchoData) (p g : String) (out : CombineOutput)
    (hc : combine_echodata eds p = .ok out) :
    groupOf eds p g = out.result.getGroup g := by
  unfold groupOf
  rw [hc]

theorem post_other (r0 : EchoData) (stf : CombineState) (g : String)
    (h : g ≠ "provenance") :
    (attachOldAttrs
      (match stf.old_ping_time with
       | some opt => addProvenanceVar r0 "old_ping_time" (VarVal.ints opt)
       | none => r0) stf.old_attrs).getGroup g = r0.getGroup g := by
  rw [attach_other _ _ _ h]
  cases stf.old_ping_time with
  | none => rfl
  | some opt => exact addProv_other r0 _ _ g h

theorem find?_congr {α : Type} (p q : α → Bool) (h : ∀ x, p x = q x) :
    ∀ l : List α, l.find? p = l.find? q := by
  intro l
  induction l with
  | nil => rfl
  | cons x rest ih =>
    cases hx : q x with
    | true => rw [List.find?_cons_of_pos _ (by rw [h x, hx]), List.find?_cons_of_pos _ hx]
    | false =>
      rw [List.find?_cons_of_neg _ (by rw [h x, hx]; exact Bool.false_ne_true),
        List.find?_cons_of_neg _ (by rw [hx]; exact Bool.false_ne_true), ih]

theorem group_map_nodup : group_map.Nodup := by decide

theorem firstRevGroup_eq (eds : List EchoData) (p m : String)
    (hm : modelOf eds = some m) :
    firstRevGroup eds p = group_map.find? (grpRev m p eds) := by
  unfold firstRevGroup
  apply find?_congr
  intro g
  unfold grpRev revAtTop
  rw [hm]

theorem combine_pings (eds : List EchoData) (p : String)
    (hok : combineOk eds p = true) (g : String) (hmem : g ∈ group_map)
    (hcgr : isConcatGroup g = true) :
    (rawPingTop eds p g = none → groupOf eds p g = none ∨
       ∃ cg, groupOf eds p g = some cg ∧ cg.pingTime = none) ∧
    (∀ pt, rawPingTop eds p g = some pt → exist_reversed_time pt = false →
       ∃ cg, groupOf eds p g = some cg ∧ cg.pingTime = some pt) ∧
    (∀ pt, rawPingTop eds p g = some pt → exist_reversed_time pt = true →
       ∃ g₀ pt₀, firstRevGroup eds p = some g₀ ∧ rawPingTop eds p g₀ = some pt₀ ∧
         ∃ cg, groupOf eds p g = some cg ∧
           cg.pingTime = some (coerce_increasing_time pt₀)) := by
  obtain ⟨out, hc⟩ := combineOk_ok eds p hok
  by_cases hne : eds = []
  · subst hne
    have hrp : rawPingTop [] p g = none := rfl
    refine ⟨fun _ => Or.inl ?_, ?_, ?_⟩
    · rw [groupOf_eq [] p g _ (combine_nil p)]
      rfl
    · intro pt hpt; rw [hrp] at hpt; cases hpt
    · intro pt hpt; rw [hrp] at hpt; cases hpt
  · obtain ⟨m, r0, stf, hfs, hpg, _, hres⟩ := combine_unfold eds p out hc hne
    have hm : modelOf eds = some m := modelOf_eq eds m hfs
    have hrpt : rawPingTop eds p g = rawPing m p eds g := rawPingTop_eq eds p g m hm
    have hgo : groupOf eds p g = r0.getGroup g := by
      rw [groupOf_eq eds p g out hc, hres]
      exact post_other r0 stf g (isConcatGroup_ne g hcgr).2.2
    cases hfind : group_map.find? (grpRev m p eds) with
    | none =>
      obtain ⟨_, _, _, hpings⟩ := pg_A_none m p eds group_map EchoData.empty
        ⟨none, none, [], []⟩ r0 stf group_map_nodup rfl rfl hfind hpg
      obtain ⟨hcl1, hcl2⟩ := hpings g hmem hcgr
      refine ⟨?_, ?_, ?_⟩
      · intro hrp
        rw [hgo]
        exact hcl1 (by rw [← hrpt]; exact hrp)
      · intro pt hpt hre
        obtain ⟨cg, hcg, hping⟩ := hcl2 pt (by rw [← hrpt]; exact hpt)
        rw [hre] at hping
        simp only [Bool.false_eq_true, if_false] at hping
        exact ⟨cg, by rw [hgo]; exact hcg, hping⟩
      · intro pt hpt hre
        have hraw : rawPing m p eds g = some pt := by rw [← hrpt]; exact hpt
        have : grpRev m p eds g = true := by
          simp [grpRev, hcgr, revAt, hraw, hre]
        have hnone := List.find?_eq_none.1 hfind g hmem
        exact absurd this hnone
    | some g₀ =>
      obtain ⟨pt₀, hrp₀, hre₀, _, _, _, hpings⟩ := pg_A_some m p eds group_map
        EchoData.empty ⟨none, none, [], []⟩ r0 stf g₀ group_map_nodup rfl rfl hfind hpg
      obtain ⟨hcl1, hcl2⟩ := hpings g hmem hcgr
      refine ⟨?_, ?_, ?_⟩
      · intro hrp
        rw [hgo]
        exact hcl1 (by rw [← hrpt]; exact hrp)
      · intro pt hpt hre
        obtain ⟨cg, hcg, hping⟩ := hcl2 pt (by rw [← hrpt]; exact hpt)
        rw [hre] at hping
        simp only [Bool.false_eq_true, if_false] at hping
        exact ⟨cg, by rw [hgo]; exact hcg, hping⟩
      · intro pt hpt hre
        obtain ⟨cg, hcg, hping⟩ := hcl2 pt (by rw [← hrpt]; exact hpt)
        rw [hre] at hping
        simp only [if_true] at hping
        refine ⟨g₀, pt₀, ?_, ?_, cg, by rw [hgo]; exact hcg, hping⟩
        · rw [firstRevGroup_eq eds p m hm, hfind]
        · have hmem₀ : g₀ ∈ group_map := List.mem_of_find?_eq_some hfind
          rw [rawPingTop_eq eds p g₀ m hm]
          exact hrp₀

theorem dropcd_assemble (l : List (Option String)) :
    drop_concat_dim (assemble_combined_provenance l) =
      ⟨[("file", l.length)], none, [("src_filenames", VarVal.paths l)],
       [("conversion_software_name", "echopype"),
        ("conversion_software_version", ECHOPYPE_VERSION),
        ("conversion_time", conversion_time_value)]⟩ := by
  rfl

theorem prov_after_post (r0 : EchoData) (stf : CombineState) (pg0 : GroupDataset)
    (hp : r0.getGroup "provenance" = some pg0) :
    ∃ extra, (attachOldAttrs
      (match stf.old_ping_time with
       | some opt => addProvenanceVar r0 "old_ping_time" (VarVal.ints opt)
       | none => r0) stf.old_attrs).getGroup "provenance" =
      some ⟨pg0.dims, pg0.pingTime,
        pg0.vars ++ ((match stf.old_ping_time with
          | some opt => [("old_ping_time", VarVal.ints opt)]
          | none => []) ++ extra), pg0.attrs⟩ := by
  cases ho : stf.old_ping_time with
  | none =>
    obtain ⟨extra, hx⟩ := attach_prov stf.old_attrs r0 pg0 hp
    refine ⟨extra, ?_⟩
    rw [hx]
    simp
  | some opt =>
    obtain ⟨extra, hx⟩ := attach_prov stf.old_attrs _ _
      (addProv_prov r0 "old_ping_time" (VarVal.ints opt) pg0 hp)
    refine ⟨extra, ?_⟩
    rw [hx]
    simp

/-- The provenance group of a successful nonempty combine run: its `file`
dimension, its `src_filenames` variable, its absent time coordinate, and —
when a time correction was computed — its `old_ping_time` variable. -/
theorem combine_prov_of_run (eds : List EchoData) (p : String) (out : CombineOutput)
    (m : String) (r0 : EchoData) (stf : CombineState)
    (hc : combine_echodata eds p = .ok out)
    (hpg : processGroups m p eds group_map EchoData.empty ⟨none, none, [], []⟩ =
      .ok (r0, stf))
    (hres : out.result = attachOldAttrs
      (match stf.old_ping_time with
       | some opt => addProvenanceVar r0 "old_ping_time" (VarVal.ints opt)
       | none => r0) stf.old_attrs) :
    ∃ pg, groupOf eds p "provenance" = some pg ∧
      pg.dims = [("file", (eds.map originOf).length)] ∧
      pg.pingTime = none ∧
      lookupA "src_filenames" pg.vars = some (VarVal.paths (eds.map originOf)) ∧
      (∀ opt, stf.old_ping_time = some opt →
        lookupA "old_ping_time" pg.vars = some (VarVal.ints opt)) := by
  have hprov0 : r0.getGroup "provenance" =
      some (drop_concat_dim (assemble_combined_provenance (eds.map originOf))) :=
    pg_prov m p eds group_map _ _ r0 stf group_map_nodup (by decide) hpg
  rw [dropcd_assemble] at hprov0
  obtain ⟨extra, hx⟩ := prov_after_post r0 stf _ hprov0
  refine ⟨⟨[("file", (eds.map originOf).length)], none,
    [("src_filenames", VarVal.paths (eds.map originOf))] ++
      ((match stf.old_ping_time with
        | some opt => [("old_ping_time", VarVal.ints opt)]
        | none => []) ++ extra),
    [("conversion_software_name", "echopype"),
     ("conversion_software_version", ECHOPYPE_VERSION),
     ("conversion_time", conversion_time_value)]⟩, ?_, rfl, rfl, ?_, ?_⟩
  · rw [groupOf_eq eds p "provenance" out hc, hres]
    exact hx
  · rw [List.singleton_append, lookupA, if_pos rfl]
  · intro opt hopt
    rw [hopt]
    show lookupA "old_ping_time"
      (("src_filenames", VarVal.paths (eds.map originOf)) ::
        ([("old_ping_time", VarVal.ints opt)] ++ extra)) = some (VarVal.ints opt)
    rw [lookupA, if_neg (by decide), List.singleton_append, lookupA, if_pos rfl]

theorem combine_validation_inv (eds : List EchoData) (p msg : String)
    (h : combine_echodata eds p = .error (.validation msg)) (hne : eds ≠ []) :
    find_sonar_model eds none = .error msg := by
  have hemp : eds.isEmpty = false := by
    cases eds with
    | nil => exact absurd rfl hne
    | cons e r => rfl
  unfold combine_echodata at h
  rw [hemp] at h
  simp only [Bool.false_eq_true, if_false] at h
  cases hfs : find_sonar_model eds none with
  | error msg' =>
    rw [hfs] at h
    dsimp only at h
    injection h with h1
    injection h1 with h2
    rw [h2]
  | ok sm =>
    rw [hfs] at h
    dsimp only at h
    cases hpg : processGroups (sm.getD "") p eds group_map
        EchoData.empty ⟨none, none, [], []⟩ with
    | error e =>
      rw [hpg] at h
      dsimp only at h
      injection h with h1
      rw [h1] at hpg
      exact absurd hpg (pg_no_validation _ p eds group_map _ _ msg)
    | ok pr =>
      obtain ⟨r0, stf⟩ := pr
      rw [hpg] at h
      exact Except.noConfusion h

/-! ### The claims -/

/-- C7: `combine` applied to the empty list of records returns a
CombinedRecord in which every group is absent, and raises nothing. -/
theorem C7_combine_empty : ∀ p : String,
    combine_echodata [] p = .ok ⟨EchoData.empty, []⟩ ∧
    (∀ g : String, EchoData.empty.getGroup g = none) :=
  fun _ => ⟨rfl, fun _ => rfl⟩

def edA_c1 : EchoData := ⟨some "EK60", some "a", none, []⟩

def edNull_c1 : EchoData := ⟨none, some "b", none, []⟩

/-- C1 (counterexample): the validation error does not name the position of
the offending record — a null model tag at position 0 and at position 1
produce the identical error value, so the error cannot identify the
position. -/
theorem C1_counterexample :
    combine_echodata [edNull_c1, edA_c1] "override" =
      combine_echodata [edA_c1, edNull_c1] "override" ∧
    combine_echodata [edNull_c1, edA_c1] "override" =
      Except.error (CombineError.validation model_null_msg) := by
  constructor <;> rfl

/-- C1 (amended): combine raises a ValidationError iff some record's model
tag is null or two records' model tags differ; the error is raised before
any group is processed (it is unchanged when every group of every record is
stripped), but it does not name the offending record's position — its
message is one of two fixed strings. -/
theorem C1_amended : ∀ (eds : List EchoData) (p : String),
    ((∃ msg, combine_echodata eds p = .error (.validation msg)) ↔
      ((∃ ed ∈ eds, ed.sonar_model = none) ∨
       (∃ e1 ∈ eds, ∃ e2 ∈ eds, e1.sonar_model ≠ e2.sonar_model))) ∧
    (∀ msg, combine_echodata eds p = .error (.validation msg) →
      combine_echodata (eds.map stripGroups) p = .error (.validation msg) ∧
      (msg = model_null_msg ∨ msg = model_mismatch_msg)) := by
  intro eds p
  constructor
  · constructor
    · rintro ⟨msg, h⟩
      by_cases hne : eds = []
      · subst hne
        rw [combine_nil] at h
        exact Except.noConfusion h
      · have hfs := combine_validation_inv eds p msg h hne
        rcases FS_err_char eds none msg hfs with hnull | hmid | hpair
        · exact Or.inl hnull
        · obtain ⟨_, _, _, hm0, _⟩ := hmid
          exact Option.noConfusion hm0
        · exact Or.inr hpair
    · intro hcond
      have hne : eds ≠ [] := by
        intro hnil
        subst hnil
        rcases hcond with ⟨ed, hed, _⟩ | ⟨e1, he1, _⟩
        · exact absurd hed (List.not_mem_nil ed)
        · exact absurd he1 (List.not_mem_nil e1)
      obtain ⟨msg, hfs⟩ := FS_err_of_cond eds hcond
      exact ⟨msg, combine_of_find_err eds p msg hne hfs⟩
  · intro msg h
    by_cases hne : eds = []
    · subst hne
      rw [combine_nil] at h
      exact Except.noConfusion h
    · have hfs := combine_validation_inv eds p msg h hne
      constructor
      · have hnem : eds.map stripGroups ≠ [] := by
          cases eds with
          | nil => exact absurd rfl hne
          | cons e r => exact fun hcon => List.noConfusion hcon
        exact combine_of_find_err (eds.map stripGroups) p msg hnem
          ((FS_strip eds none).trans hfs)
      · exact FS_msgs eds none msg hfs

/-- C1 (witness): the amended theorem applied to one concrete record with a
null model tag. -/
theorem C1_witness :
    combine_echodata (List.map stripGroups [edNull_c1]) "drop" =
      Except.error (CombineError.validation model_null_msg) :=
  ((C1_amended [edNull_c1] "drop").2 model_null_msg rfl).1

def env_c2 : GroupDataset := ⟨[("ping_time", 4)], some [10, 20, 15, 30], [], []⟩

def plat_c2 : GroupDataset := ⟨[("ping_time", 3)], some [1, 2, 3], [], []⟩

def ed_c2 : EchoData :=
  ⟨some "EK60", some "f1", none, [("environment", some env_c2), ("platform", some plat_c2)]⟩

/-- C2 (counterexample): after the time correction has been computed on the
`environment` group (the warning was emitted and the corrected axis stored),
the later `platform` group still carries its own coordinate `[1, 2, 3]` —
it is not overwritten with the cached corrected axis, and the two groups do
not share one identical time axis. -/
theorem C2_counterexample :
    pingOf [ed_c2] "override" "environment" = some [10, 20, 21, 36] ∧
    warningsOf [ed_c2] "override" = some [reversal_warning] ∧
    pingOf [ed_c2] "override" "platform" = some [1, 2, 3] ∧
    pingOf [ed_c2] "override" "platform" ≠ pingOf [ed_c2] "override" "environment" := by
  refine ⟨by decide, ?_, by decide, by decide⟩
  rfl

/-- C2 (amended): after a correction has been computed, detection is still
run on every later group; a later group whose concatenated coordinate has no
reversal keeps that coordinate unchanged, and only a group where a reversal
is detected is overwritten with the corrected axis computed at the first
reversal group. -/
theorem C2_amended : ∀ (eds : List EchoData) (p g : String) (pt : List Int),
    combineOk eds p = true → g ∈ group_map → isConcatGroup g = true →
    rawPingTop eds p g = some pt →
    ((exist_reversed_time pt = false → pingOf eds p g = some pt) ∧
     (exist_reversed_time pt = true →
       ∃ g₀ pt₀, firstRevGroup eds p = some g₀ ∧ rawPingTop eds p g₀ = some pt₀ ∧
         pingOf eds p g = some (coerce_increasing_time pt₀))) := by
  intro eds p g pt hok hmem hcgr hpt
  obtain ⟨_, hcl2, hcl3⟩ := combine_pings eds p hok g hmem hcgr
  constructor
  · intro hre
    obtain ⟨cg, hcg, hping⟩ := hcl2 pt hpt hre
    unfold pingOf
    rw [hcg]
    exact hping
  · intro hre
    obtain ⟨g₀, pt₀, hfg, hrt₀, cg, hcg, hping⟩ := hcl3 pt hpt hre
    refine ⟨g₀, pt₀, hfg, hrt₀, ?_⟩
    unfold pingOf
    rw [hcg]
    exact hping

/-- C2 (witness): the amended theorem applied to the non-reversed
`platform` group of the counterexample input. -/
theorem C2_witness : pingOf [ed_c2] "override" "platform" = some [1, 2, 3] :=
  (C2_amended [ed_c2] "override" "platform" [1, 2, 3]
    (by decide) (by decide) (by decide) (by decide)).1 (by decide)

def ed_c8 : EchoData := ⟨some "EK60", some "f", none, [("top", some ⟨[], none, [], []⟩)]⟩

/-- C8 (counterexample): a combine call with the unknown attrs-policy value
`"bogus-policy"` completes successfully — no validation of the policy value
is performed when no group is concatenated. -/
theorem C8_counterexample : combineOk [ed_c8] "bogus-policy" = true := by decide

/-- C8 (amended): combine itself performs no validation of the attrs-policy
value.  When no record contributes any concatenable group the policy string
is never examined: the outcome is identical for every policy value, and the
call either fails model validation or succeeds — an unknown policy can only
be rejected later, by the concatenation backend, when a group is actually
concatenated. -/
theorem C8_amended : ∀ (eds : List EchoData) (p q : String),
    (∀ ed ∈ eds, ∀ g, g ∈ group_map → isConcatGroup g = true →
      ed.getGroup g = none) →
    (combine_echodata eds p = combine_echodata eds q ∧
     ((∃ msg, combine_echodata eds p = .error (.validation msg)) ∨
      combineOk eds p = true)) := by
  intro eds p q hall
  have hfm : ∀ g ∈ group_map, isConcatGroup g = true →
      eds.filterMap (fun ed => ed.getGroup g) = [] :=
    fun g hg hcg => filterMap_getGroup_nil eds g (fun ed hed => hall ed hed g hg hcg)
  by_cases hne : eds = []
  · subst hne
    exact ⟨rfl, Or.inr rfl⟩
  · have hemp : eds.isEmpty = false := by
      cases eds with
      | nil => exact absurd rfl hne
      | cons e r => rfl
    constructor
    · unfold combine_echodata
      rw [hemp]
      simp only [Bool.false_eq_true, if_false]
      cases hfs : find_sonar_model eds none with
      | error msg => rfl
      | ok sm =>
        dsimp only
        rw [pg_policy_indep (sm.getD "") eds group_map EchoData.empty
          ⟨none, none, [], []⟩ p q hfm]
    · cases hfs : find_sonar_model eds none with
      | error msg =>
        exact Or.inl ⟨msg, combine_of_find_err eds p msg hne hfs⟩
      | ok sm =>
        refine Or.inr ?_
        obtain ⟨res, hres⟩ :=
          pg_nogroups_ok (sm.getD "") p eds group_map EchoData.empty
            ⟨none, none, [], []⟩ hfm
        obtain ⟨r0, stf⟩ := res
        unfold combineOk combine_echodata
        rw [hemp]
        simp only [Bool.false_eq_true, if_false]
        rw [hfs]
        dsimp only
        rw [hres]

def ed_c8w : EchoData := ⟨some "EK60", some "w", none, []⟩

/-- C8 (witness): the amended theorem applied to a concrete record with no
concatenable groups and two different unknown policy strings. -/
theorem C8_witness :
    combine_echodata [ed_c8w] "bogus" = combine_echodata [ed_c8w] "another-bogus" :=
  (C8_amended [ed_c8w] "bogus" "another-bogus" (by decide)).1

/-- C9: for every nonempty list of N records on which combine succeeds, the
provenance group of the result has a `file` dimension of length N and a
`src_filenames` variable equal, in order, to each record's origin identifier
(its source file path, or its prior converted path when that is null). -/
theorem C9_provenance : ∀ (eds : List EchoData) (p : String),
    eds ≠ [] → combineOk eds p = true →
    srcFilenamesOf eds p = some (VarVal.paths (eds.map originOf)) ∧
    fileDimOf eds p = some eds.length := by
  intro eds p hne hok
  obtain ⟨out, hc⟩ := combineOk_ok eds p hok
  obtain ⟨m, r0, stf, hfs, hpg, _, hres⟩ := combine_unfold eds p out hc hne
  obtain ⟨pg, hgo, hdims, _, hsrc, _⟩ :=
    combine_prov_of_run eds p out m r0 stf hc hpg hres
  constructor
  · unfold srcFilenamesOf
    rw [hgo]
    exact hsrc
  · unfold fileDimOf
    rw [hgo]
    show some (sizeAlong pg "file") = some eds.length
    rw [sizeAlong, hdims, lookupA, if_pos rfl]
    rw [List.length_map]
    rfl

def ed1_w9 : EchoData := ⟨some "EK60", some "f1", none, []⟩

def ed2_w9 : EchoData := ⟨some "EK60", none, some "c2", []⟩

/-- C9 (witness): two concrete records, the second with a null source file
path falling back to its converted path. -/
theorem C9_witness :
    srcFilenamesOf [ed1_w9, ed2_w9] "override" =
      some (VarVal.paths [some "f1", some "c2"]) ∧
    fileDimOf [ed1_w9, ed2_w9] "override" = some 2 :=
  C9_provenance [ed1_w9, ed2_w9] "override" (by decide) (by decide)

/-- C10: `combine_echodata` called without an explicit `combine_attrs`
argument behaves exactly as if `"override"` had been passed, and under the
override policy every concatenated group's global attrs equal the attrs of
the first contributing sub-dataset, verbatim. -/
theorem C10_default_override : ∀ eds : List EchoData,
    combine_echodata_default eds = combine_echodata eds "override" ∧
    (∀ (g : String) (d : GroupDataset) (ds2 : List GroupDataset),
      combineOk eds "override" = true → g ∈ group_map → isConcatGroup g = true →
      eds.filterMap (fun ed => ed.getGroup g) = d :: ds2 →
      attrsOf eds "override" g = some d.attrs) := by
  intro eds
  refine ⟨rfl, ?_⟩
  intro g d ds2 hok hmem hcgr hf
  obtain ⟨out, hc⟩ := combineOk_ok eds "override" hok
  have hne : eds ≠ [] := by
    intro hnil
    subst hnil
    cases hf
  obtain ⟨m, r0, stf, hfs, hpg, _, hres⟩ := combine_unfold eds "override" out hc hne
  obtain ⟨cg, hcg, _, hattrs, _⟩ :=
    (pg_shape m "override" eds group_map EchoData.empty ⟨none, none, [], []⟩
      r0 stf g group_map_nodup hmem hcgr hpg).2 d ds2 hf
  have hexp : expectedAttrs "override" (d :: ds2) = some d.attrs := by
    rw [expectedAttrs, if_neg (by decide), mergeAttrsPolicy_override, List.map_cons]
    rfl
  rw [hexp] at hattrs
  unfold attrsOf
  rw [groupOf_eq eds "override" g out hc, hres,
    post_other r0 stf g (isConcatGroup_ne g hcgr).2.2, hcg, Option.map_some']
  exact hattrs

def dA_w10 : GroupDataset := ⟨[("ping_time", 1)], some [1], [], [("a", "1")]⟩

def dB_w10 : GroupDataset := ⟨[("ping_time", 1)], some [2], [], [("a", "2")]⟩

def ed1_w10 : EchoData := ⟨some "EK60", some "f1", none, [("environment", some dA_w10)]⟩

def ed2_w10 : EchoData := ⟨some "EK60", some "f2", none, [("environment", some dB_w10)]⟩

/-- C10 (witness): with the default policy, the combined environment group
keeps the first contributor's attrs. -/
theorem C10_witness : attrsOf [ed1_w10, ed2_w10] "override" "environment" =
    some dA_w10.attrs :=
  (C10_default_override [ed1_w10, ed2_w10]).2 "environment" dA_w10 [dB_w10]
    (by decide) (by decide) (by decide) (by decide)

/-- C5: under the `overwrite_conflicts` policy combine never raises an
attribute-conflict error (any failure is the model validation), the combined
group's attrs are exactly the union-with-last-write-wins pass over the
contributing sub-datasets (concatenation itself runs with attrs dropped),
and for every key the union holds the value of the last contributing
sub-dataset (by input order) that defines it. -/
theorem C5_overwrite :
    (∀ (eds : List EchoData) (e : CombineError),
      combine_echodata eds "overwrite_conflicts" = .error e →
      ∃ msg, e = .validation msg) ∧
    (∀ (eds : List EchoData) (g : String) (d : GroupDataset)
      (ds2 : List GroupDataset),
      combineOk eds "overwrite_conflicts" = true → g ∈ group_map →
      isConcatGroup g = true →
      eds.filterMap (fun ed => ed.getGroup g) = d :: ds2 →
      attrsOf eds "overwrite_conflicts" g = some (union_attrs (d :: ds2)) ∧
      ∀ k, lookupA k (union_attrs (d :: ds2)) = lastWins k (d :: ds2)) := by
  constructor
  · intro eds e h
    by_cases hne : eds = []
    · subst hne
      rw [combine_nil] at h
      exact Except.noConfusion h
    · have hemp : eds.isEmpty = false := by
        cases eds with
        | nil => exact absurd rfl hne
        | cons e0 r => rfl
      unfold combine_echodata at h
      rw [hemp] at h
      simp only [Bool.false_eq_true, if_false] at h
      cases hfs : find_sonar_model eds none with
      | error msg =>
        rw [hfs] at h
        dsimp only at h
        injection h with h1
        exact ⟨msg, h1.symm⟩
      | ok sm =>
        rw [hfs] at h
        dsimp only at h
        obtain ⟨res, hres⟩ :=
          pg_ow_ok (sm.getD "") eds group_map EchoData.empty ⟨none, none, [], []⟩
        obtain ⟨r0, stf⟩ := res
        rw [hres] at h
        exact Except.noConfusion h
  · intro eds g d ds2 hok hmem hcgr hf
    obtain ⟨out, hc⟩ := combineOk_ok eds "overwrite_conflicts" hok
    have hne : eds ≠ [] := by
      intro hnil
      subst hnil
      cases hf
    obtain ⟨m, r0, stf, hfs, hpg, _, hres⟩ :=
      combine_unfold eds "overwrite_conflicts" out hc hne
    obtain ⟨cg, hcg, _, hattrs, _⟩ :=
      (pg_shape m "overwrite_conflicts" eds group_map EchoData.empty
        ⟨none, none, [], []⟩ r0 stf g group_map_nodup hmem hcgr hpg).2 d ds2 hf
    have hexp : expectedAttrs "overwrite_conflicts" (d :: ds2) =
        some (union_attrs (d :: ds2)) := by
      rw [expectedAttrs, if_pos rfl]
    rw [hexp] at hattrs
    constructor
    · unfold attrsOf
      rw [groupOf_eq eds "overwrite_conflicts" g out hc, hres,
        post_other r0 stf g (isConcatGroup_ne g hcgr).2.2, hcg, Option.map_some']
      exact hattrs
    · intro k
      exact lookupA_lastWins k (d :: ds2)

def dA_w5 : GroupDataset := ⟨[("ping_time", 2)], some [1, 2], [], [("a", "1"), ("b", "x")]⟩

def dB_w5 : GroupDataset := ⟨[("ping_time", 3)], some [5, 6, 7], [], [("a", "2")]⟩

def ed1_w5 : EchoData := ⟨some "EK60", some "f1", none, [("environment", some dA_w5)]⟩

def ed2_w5 : EchoData := ⟨some "EK60", none, some "c2", [("environment", some dB_w5)]⟩

/-- C5 (witness): merging `a ↦ 1` then `a ↦ 2` under `overwrite_conflicts`
succeeds and the union resolves `a` to the later value. -/
theorem C5_witness :
    attrsOf [ed1_w5, ed2_w5] "overwrite_conflicts" "environment" =
      some (union_attrs [dA_w5, dB_w5]) ∧
    lookupA "a" (union_attrs [dA_w5, dB_w5]) = lastWins "a" [dA_w5, dB_w5] :=
  have h := C5_overwrite.2 [ed1_w5, ed2_w5] "environment" dA_w5 [dB_w5]
    (by decide) (by decide) (by decide) (by decide)
  ⟨h.1, h.2 "a"⟩

/-- C4: in any single combine call the time-reversal warning is emitted at
most once; it is emitted (exactly once) iff some ordinary group's
concatenated coordinate carries a reversal; and the uncorrected coordinate
stored in the provenance group is exactly the coordinate of the *first*
group (in group-map order) where a reversal was detected — later reversals
never emit a second warning. -/
theorem C4_warning_once : ∀ (eds : List EchoData) (p : String) (ws : List String),
    warningsOf eds p = some ws →
    (ws = [] ∨ ws = [reversal_warning]) ∧
    (ws = [reversal_warning] ↔
      ∃ g ∈ group_map, isConcatGroup g = true ∧ revAtTop eds p g = true) ∧
    (∀ g₀ pt₀, firstRevGroup eds p = some g₀ → rawPingTop eds p g₀ = some pt₀ →
      provOldPing eds p = some pt₀) := by
  intro eds p ws hws
  unfold warningsOf at hws
  cases hc : combine_echodata eds p with
  | error e => rw [hc] at hws; exact Option.noConfusion hws
  | ok out =>
    rw [hc] at hws
    injection hws with hws
    by_cases hne : eds = []
    · subst hne
      have hout : out = ⟨EchoData.empty, []⟩ := by
        rw [combine_nil] at hc
        exact (Except.ok.inj hc).symm
      have hwnil : ws = [] := by rw [← hws, hout]
      subst hwnil
      refine ⟨Or.inl rfl, ?_, ?_⟩
      · constructor
        · intro h; exact List.noConfusion h
        · rintro ⟨g, _, _, hrev⟩
          have : revAtTop [] p g = false := rfl
          rw [this] at hrev
          exact Bool.noConfusion hrev
      · intro g₀ pt₀ hfg _
        have hnone : firstRevGroup [] p = none := by
          unfold firstRevGroup
          apply List.find?_eq_none.2
          intro g _
          show ¬(isConcatGroup g && revAtTop [] p g) = true
          rw [show revAtTop [] p g = false from rfl, Bool.and_false]
          exact Bool.false_ne_true
        rw [hnone] at hfg
        exact Option.noConfusion hfg
    · obtain ⟨m, r0, stf, hfs, hpg, hw, hres⟩ := combine_unfold eds p out hc hne
      have hm := modelOf_eq eds m hfs
      have hws' : ws = stf.warnings := by rw [← hws, hw]
      cases hfind : group_map.find? (grpRev m p eds) with
      | none =>
        obtain ⟨_, _, hwarn, _⟩ := pg_A_none m p eds group_map EchoData.empty
          ⟨none, none, [], []⟩ r0 stf group_map_nodup rfl rfl hfind hpg
        have hwnil : ws = [] := by rw [hws', hwarn]
        refine ⟨Or.inl hwnil, ?_, ?_⟩
        · constructor
          · intro h
            rw [hwnil] at h
            exact List.noConfusion h
          · rintro ⟨g, hg, hcg, hrev⟩
            have hgr : grpRev m p eds g = true := by
              unfold revAtTop at hrev
              rw [hm] at hrev
              dsimp only at hrev
              rw [grpRev, hcg, hrev]
              rfl
            exact absurd hgr (List.find?_eq_none.1 hfind g hg)
        · intro g₀ pt₀ hfg _
          rw [firstRevGroup_eq eds p m hm, hfind] at hfg
          exact Option.noConfusion hfg
      | some g₀' =>
        obtain ⟨pt₀', hrp₀, hre₀, hold, _, hwarn, _⟩ := pg_A_some m p eds group_map
          EchoData.empty ⟨none, none, [], []⟩ r0 stf g₀' group_map_nodup rfl rfl hfind hpg
        have hwl : ws = [reversal_warning] := by rw [hws', hwarn]; rfl
        refine ⟨Or.inr hwl, ?_, ?_⟩
        · constructor
          · intro _
            have hpred := List.find?_some hfind
            rw [grpRev, Bool.and_eq_true] at hpred
            refine ⟨g₀', List.mem_of_find?_eq_some hfind, hpred.1, ?_⟩
            unfold revAtTop
            rw [hm]
            exact hpred.2
          · intro _
            exact hwl
        · intro g₀ pt₀ hfg hrt
          rw [firstRevGroup_eq eds p m hm, hfind] at hfg
          injection hfg with hfg
          rw [rawPingTop_eq eds p g₀ m hm, ← hfg, hrp₀] at hrt
          injection hrt with hrt
          obtain ⟨pg, hgo, _, _, _, holdv⟩ :=
            combine_prov_of_run eds p out m r0 stf hc hpg hres
          unfold provOldPing
          rw [hgo, Option.some_bind, holdv pt₀' hold, hrt]

def env_c4 : GroupDataset := ⟨[("ping_time", 4)], some [10, 20, 15, 30], [], []⟩

def ed_c4 : EchoData := ⟨some "EK60", some "f4", none, [("environment", some env_c4)]⟩

/-- C4 (witness): one record with a reversed coordinate — the warning fires
once and the provenance group stores the uncorrected coordinate of the first
(and only) reversal group. -/
theorem C4_witness : provOldPing [ed_c4] "override" = some [10, 20, 15, 30] :=
  (C4_warning_once [ed_c4] "override" [reversal_warning] (by decide)).2.2
    "environment" [10, 20, 15, 30] (by decide) (by decide)

def top_c3 : GroupDataset := ⟨[], some [5, 3], [], []⟩

def ed_c3 : EchoData := ⟨some "EK60", some "f3", none, [("top", some top_c3)]⟩

/-- C3 (counterexample): the `top` group is copied verbatim from the first
record without any time check, so a non-increasing acquisition-time
coordinate survives into the combined record. -/
theorem C3_counterexample :
    pingOf [ed_c3] "override" "top" = some [5, 3] ∧
    ¬ List.Chain' (· < ·) ([5, 3] : List Int) := by
  constructor
  · rfl
  · intro h
    have h1 : (5 : Int) < 3 := (List.chain'_cons.1 h).1
    omega

/-- C3 (amended): in every group of the returned CombinedRecord other than
the verbatim-copied `top` and `sonar` groups, an acquisition-time
coordinate, when present, is strictly increasing. -/
theorem C3_amended : ∀ (eds : List EchoData) (p g : String) (pt : List Int),
    g ≠ "top" → g ≠ "sonar" → pingOf eds p g = some pt →
    List.Chain' (· < ·) pt := by
  intro eds p g pt htop hsonar hping
  unfold pingOf at hping
  obtain ⟨cg, hgo, hpingcg⟩ := Option.bind_eq_some.1 hping
  cases hc : combine_echodata eds p with
  | error e =>
    unfold groupOf at hgo
    rw [hc] at hgo
    exact Option.noConfusion hgo
  | ok out =>
    by_cases hne : eds = []
    · subst hne
      rw [groupOf_eq [] p g _ (combine_nil p)] at hgo
      exact Option.noConfusion hgo
    · obtain ⟨m, r0, stf, hfs, hpg, _, hres⟩ := combine_unfold eds p out hc hne
      by_cases hprov : g = "provenance"
      · subst hprov
        obtain ⟨pg, hgo', _, hpnone, _, _⟩ :=
          combine_prov_of_run eds p out m r0 stf hc hpg hres
        rw [hgo'] at hgo
        injection hgo with hgo
        rw [hgo] at hpnone
        rw [hpnone] at hpingcg
        exact Option.noConfusion hpingcg
      · by_cases hmem : g ∈ group_map
        · have hcgr : isConcatGroup g = true := isConcatGroup_of_ne g htop hsonar hprov
          have hok : combineOk eds p = true := by
            unfold combineOk
            rw [hc]
          obtain ⟨hcl1, hcl2, hcl3⟩ := combine_pings eds p hok g hmem hcgr
          cases hrt : rawPingTop eds p g with
          | none =>
            rcases hcl1 hrt with hnone | ⟨cg', hcg', hping'⟩
            · rw [hnone] at hgo
              exact Option.noConfusion hgo
            · rw [hcg'] at hgo
              injection hgo with hgo
              rw [hgo] at hping'
              rw [hping'] at hpingcg
              exact Option.noConfusion hpingcg
          | some pt' =>
            cases hre : exist_reversed_time pt' with
            | false =>
              obtain ⟨cg', hcg', hping'⟩ := hcl2 pt' hrt hre
              rw [hcg'] at hgo
              injection hgo with hgo
              rw [hgo] at hping'
              rw [hping'] at hpingcg
              injection hpingcg with hpingcg
              rw [← hpingcg]
              exact chain'_of_not_reversed pt' hre
            | true =>
              obtain ⟨g₀, pt₀, _, _, cg', hcg', hping'⟩ := hcl3 pt' hrt hre
              rw [hcg'] at hgo
              injection hgo with hgo
              rw [hgo] at hping'
              rw [hping'] at hpingcg
              injection hpingcg with hpingcg
              rw [← hpingcg]
              exact chain'_coerce pt₀
        · have : groupOf eds p g = none := by
            rw [groupOf_eq eds p g out hc, hres, post_other r0 stf g hprov,
              pg_preserve m p eds group_map _ _ r0 stf g hmem hpg]
            rfl
          rw [this] at hgo
          exact Option.noConfusion hgo

def env_c3w : GroupDataset := ⟨[("ping_time", 4)], some [10, 20, 15, 30], [], []⟩

def ed_c3w : EchoData := ⟨some "EK60", some "w3", none, [("environment", some env_c3w)]⟩

/-- C3 (witness): the amended theorem applied to a concrete record whose
reversed environment coordinate is repaired to a strictly increasing one. -/
theorem C3_witness : List.Chain' (· < ·) ([10, 20, 21, 36] : List Int) :=
  C3_amended [ed_c3w] "override" "environment" [10, 20, 21, 36]
    (by decide) (by decide) (by decide)

/-- C6: for every ordinary (concatenated) group: if no record has the group
the output group is absent; if a non-empty subset of records has it, the
output group exists and its length along the configured concat dimension is
the sum of the per-input sizes; and for a singleton subset under the
override policy (with well-formed dims and no time reversal) the output
group is the first record's sub-dataset itself. -/
theorem C6_group_subsets : ∀ (eds : List EchoData) (p g : String),
    combineOk eds p = true → g ∈ group_map → isConcatGroup g = true →
    ((eds.filterMap (fun ed => ed.getGroup g) = [] → groupOf eds p g = none) ∧
     (∀ d ds2, eds.filterMap (fun ed => ed.getGroup g) = d :: ds2 →
       ∃ cg, groupOf eds p g = some cg ∧
         sizeAlong cg (concatDimFor ((modelOf eds).getD "") g) =
           ((d :: ds2).map
             (fun x => sizeAlong x (concatDimFor ((modelOf eds).getD "") g))).sum) ∧
     (∀ d, eds.filterMap (fun ed => ed.getGroup g) = [d] → p = "override" →
       (d.dims.map Prod.fst).Nodup →
       (∃ n, lookupA "ping_time" d.dims = some n) →
       lookupA "concat_dim" d.dims = none →
       (d.pingTime = none ∨
         ∃ pt, d.pingTime = some pt ∧ exist_reversed_time pt = false) →
       groupOf eds p g = some d)) := by
  intro eds p g hok hmem hcgr
  obtain ⟨out, hc⟩ := combineOk_ok eds p hok
  by_cases hne : eds = []
  · subst hne
    refine ⟨?_, ?_, ?_⟩
    · intro _
      rw [groupOf_eq [] p g _ (combine_nil p)]
      rfl
    · intro d ds2 hf
      exact List.noConfusion hf
    · intro d hf _ _ _ _ _
      exact List.noConfusion hf
  · obtain ⟨m, r0, stf, hfs, hpg, _, hres⟩ := combine_unfold eds p out hc hne
    have hm := modelOf_eq eds m hfs
    have hmd : (modelOf eds).getD "" = m := by rw [hm]; rfl
    have hshape := pg_shape m p eds group_map EchoData.empty ⟨none, none, [], []⟩
      r0 stf g group_map_nodup hmem hcgr hpg
    have hgo_eq : ∀ x, r0.getGroup g = x → groupOf eds p g = x := by
      intro x hx
      rw [groupOf_eq eds p g out hc, hres,
        post_other r0 stf g (isConcatGroup_ne g hcgr).2.2]
      exact hx
    refine ⟨?_, ?_, ?_⟩
    · intro hf
      exact hgo_eq none (hshape.1 hf)
    · intro d ds2 hf
      obtain ⟨cg, hcg, hdims, _, _⟩ := hshape.2 d ds2 hf
      refine ⟨cg, hgo_eq (some cg) hcg, ?_⟩
      rw [hmd, concatDimFor_eq m g]
      rw [concatDimFor_eq m g] at hdims
      rw [sizeAlong, hdims,
        lookupA_filter_ne "ping_time" "concat_dim" (by decide) _, lookupA_setDimSize]
      rfl
    · intro d hf hpol hnd hpn hcd hpingd
      subst hpol
      obtain ⟨cg, hcg, hdims, hattrs, hvars⟩ := hshape.2 d [] hf
      have hexp : expectedAttrs "override" [d] = some d.attrs := by
        rw [expectedAttrs, if_neg (by decide), mergeAttrsPolicy_override, List.map_cons]
        rfl
      rw [hexp] at hattrs
      have hattrs' : cg.attrs = d.attrs := Option.some.inj hattrs
      obtain ⟨n, hn⟩ := hpn
      have hsz : sizeAlong d "ping_time" = n := by
        rw [sizeAlong, hn]
        rfl
      have hdims' : cg.dims = d.dims := by
        rw [concatDimFor_eq m g] at hdims
        rw [hdims]
        have hsum : ([d].map (fun x => sizeAlong x "ping_time")).sum = n := by
          rw [List.map_cons, List.map_nil, List.sum_cons, List.sum_nil, hsz]
          exact Nat.add_zero n
        rw [hsum, setDimSize_id d.dims "ping_time" n hnd hn,
          filter_id_of_no_key "concat_dim" d.dims hcd]
      obtain ⟨hcl1, hcl2, _⟩ := combine_pings eds "override" hok g hmem hcgr
      have hcn : combineNested [d] (concatDimFor m g) (effective_policy "override") =
          .ok ⟨setDimSize d.dims (concatDimFor m g)
                (([d].map (fun x => sizeAlong x (concatDimFor m g))).sum),
              joinPings ([d].filterMap (fun x => x.pingTime)), d.vars,
              ([d].map (fun x => x.attrs)).headD []⟩ := by
        rw [combineNested]
        rw [show effective_policy "override" = "override" from rfl,
          mergeAttrsPolicy_override]
      have hrt : rawPingTop eds "override" g =
          joinPings ([d].filterMap (fun x => x.pingTime)) := by
        rw [rawPingTop_eq eds "override" g m hm, rawPing,
          rawConcat_of_step m "override" g eds d [] _ hf hcn]
        rfl
      have hping' : cg.pingTime = d.pingTime := by
        rcases hpingd with hnone | ⟨pt, hpt, hrev⟩
        · have hjo : joinPings ([d].filterMap (fun x => x.pingTime)) = none := by
            rw [List.filterMap_cons, hnone]
            rfl
          rcases hcl1 (hrt.trans hjo) with hgnone | ⟨cg', hcg', hp'⟩
          · rw [hgo_eq (some cg) hcg] at hgnone
            exact Option.noConfusion hgnone
          · have heq := (hgo_eq (some cg) hcg).symm.trans hcg'
            injection heq with hcgeq
            rw [hcgeq, hp', hnone]
        · have hjo : joinPings ([d].filterMap (fun x => x.pingTime)) =
              some (pt ++ []) := by
            rw [List.filterMap_cons, hpt]
            rfl
          have hre2 : exist_reversed_time (pt ++ []) = false := by
            rw [List.append_nil]
            exact hrev
          obtain ⟨cg', hcg', hp'⟩ := hcl2 (pt ++ []) (hrt.trans hjo) hre2
          have heq := (hgo_eq (some cg) hcg).symm.trans hcg'
          injection heq with hcgeq
          rw [hcgeq, hp', List.append_nil, hpt]
      have hcgd : cg = d := by
        obtain ⟨cd, cp, cv, ca⟩ := cg
        obtain ⟨dd, dp, dv, da⟩ := d
        dsimp only at hdims' hattrs' hvars hping'
        rw [hdims', hattrs', hvars, hping']
      rw [hgo_eq (some cg) hcg, hcgd]

def dV_w6 : GroupDataset := ⟨[("ping_time", 2)], some [1, 2], [], [("k", "v")]⟩

def ed1_w6 : EchoData := ⟨some "EK60", some "f1", none, [("vendor", some dV_w6)]⟩

def ed2_w6 : EchoData := ⟨some "EK60", some "f2", none, []⟩

/-- C6 (witness): combining two same-model records where only the second
lacks the `vendor` group yields `vendor` built from the first record's
sub-dataset alone. -/
theorem C6_witness : groupOf [ed1_w6, ed2_w6] "override" "vendor" = some dV_w6 :=
  (C6_group_subsets [ed1_w6, ed2_w6] "override" "vendor"
    (by decide) (by decide) (by decide)).2.2 dV_w6 (by decide) rfl (by decide)
    ⟨2, by decide⟩ (by decide) (Or.inr ⟨[1, 2], rfl, by decide⟩)
